import Mathlib

/-!
Shallow embedding of `src/graphingBFS.py` (classes `Routing`, `Node`, `Graph`).

Modelling conventions:
* Python `Node` objects exist one per dictionary key and are compared by object
  identity, which coincides with name equality; object references (adjacency
  entries, upstream pointers) are therefore represented by the node's name.
* The node-object dictionary `nodeObjDict` is represented as an insertion
  ordered association list `List (String × Node)`; `updNode` mirrors a field
  assignment on the mutable Python object, `getNode` mirrors `dict[...]` access
  at a name that is known to be a key.
* Python `while` loops are modelled with explicit fuel; the fuel bounds used by
  the top-level operations are large enough that fuel exhaustion coincides with
  actual divergence of the Python loop (each graph node is enqueued at most
  once by the breadth-first loop, and the enumerate loop of `connectAdj`
  preserves the length of the list it iterates).
* Failures (`assert`, dict `KeyError`, `list.pop` `IndexError`) are modelled by
  the `PyErr` type.  Mutating operations return `Option PyErr × _` pairs: on an
  error the second component is the object state at the moment the exception is
  raised.
-/

set_option maxRecDepth 8000

/-- Errors raised by graphingBFS.py: the two `assert`-based validation failures
(undefined adjacency node at construction time, undefined root/target node at
request time), a dictionary `KeyError`, and a `list.pop` `IndexError`. -/
inductive PyErr where
  | undefinedAdjacency (nodeName adjName : String)
  | undefinedNode (nodeName : String)
  | keyError (name : String)
  | indexError
deriving DecidableEq, Repr

/-- Routing objectives, mirroring `class Routing(enum.Enum)`. -/
inductive Routing where
  | leastCost
  | bestBandwidth
  | minHopCount
deriving DecidableEq, Repr

/-- Per-node state, mirroring class `Node`.  `adjacencies` holds (neighbor name,
edge value) pairs; `upstreamNodeToRoot` holds the name of the upstream node
(a node pointing to itself is the self-reference sentinel). -/
structure Node where
  adjacencies : List (String × Int)
  numHopsFromRoot : Int
  upstreamNodeToRoot : String
  valueToRoot : Int
  lowestBwPipeToRoot : Int
deriving DecidableEq, Repr

/-- Field values set by `Node.__init__` and by `Node.resetNode` (both assign the
same values). -/
def Node.init (nodeName : String) : Node :=
  { adjacencies := []
    numHopsFromRoot := -1
    upstreamNodeToRoot := nodeName
    valueToRoot := -1
    lowestBwPipeToRoot := 999 }

/-- User-supplied node adjacency dictionary: an insertion-ordered mapping from
node name to its list of (adjacent node name, edge value) pairs. -/
abbrev GraphSpec := List (String × List (String × Int))

/-- Node-object dictionary: one `Node` per declared key, in insertion order. -/
abbrev ObjDict := List (String × Node)

/-- Dictionary read `nodeObjDict[name]` for a name known to be a key (the
pristine node is a dummy default that is never reached at key names). -/
def getNode (m : ObjDict) (name : String) : Node :=
  match m.find? (fun p => p.1 = name) with
  | some p => p.2
  | none => Node.init name

/-- Field assignment on the node object `name`: replace its stored state with
the new node value computed by the caller. -/
def updNode (m : ObjDict) (name : String) (nd : Node) : ObjDict :=
  m.map (fun p => if p.1 = name then (p.1, nd) else p)

/-- Graph object state, mirroring class `Graph` (the logger is omitted as an
excluded collaborator). -/
structure Graph where
  nodeAdjDict : GraphSpec
  directed : Bool
  rootNodeName : String
  node2Name : String
  routingType : Routing
  nodeObjDict : ObjDict
deriving DecidableEq, Repr

/-- Key list of the node dictionaries (`nodeAdjDict` and `nodeObjDict` share the
same keys, in insertion order). -/
def Graph.keys (g : Graph) : List String :=
  g.nodeAdjDict.map Prod.fst

/-- Adjacency validation loop of `Graph.__init__`: for every node key, every
declared adjacency name must itself be a key; the first violation (in dictionary
order) raises the assertion. -/
def checkAdjacencies (ks : List String) : GraphSpec → Option PyErr
  | [] => none
  | (nodeName, adjL) :: rest =>
    match adjL.find? (fun p => !(ks.contains p.1)) with
    | some p => some (.undefinedAdjacency nodeName p.1)
    | none => checkAdjacencies ks rest

/-- Key list of a raw `GraphSpec`. -/
def specKeys (spec : GraphSpec) : List String :=
  spec.map Prod.fst

/-- `Graph.__init__`: validate the adjacency dictionary, then create one pristine
node object per key (defaults as in the source: `routingType` starts at
`minHopCount`, the root/node2 names start empty). -/
def Graph.init (nodeAdjD : GraphSpec) (direct : Bool) : Except PyErr Graph :=
  match checkAdjacencies (specKeys nodeAdjD) nodeAdjD with
  | some e => .error e
  | none =>
    .ok { nodeAdjDict := nodeAdjD
          directed := direct
          rootNodeName := ""
          node2Name := ""
          routingType := .minHopCount
          nodeObjDict := nodeAdjD.map (fun p => (p.1, Node.init p.1)) }

/-- First loop of `Graph.connectAdj`: append every declared (neighbor, value)
pair of every node to that node's object adjacency list. -/
def loadAdjacencies (spec : GraphSpec) (m : ObjDict) : ObjDict :=
  spec.foldl
    (fun acc p =>
      updNode acc p.1
        { getNode acc p.1 with adjacencies := (getNode acc p.1).adjacencies ++ p.2 })
    m

/-- Merge rule for one undirected edge pair: the larger value for bandwidth, the
smaller one otherwise (`max(adjEdgeVal, adjAdjEdgeVal)` vs `min`). -/
def symEdgeVal (routingType : Routing) (adjEdgeVal adjAdjEdgeVal : Int) : Int :=
  if routingType = .bestBandwidth then max adjEdgeVal adjAdjEdgeVal
  else min adjEdgeVal adjAdjEdgeVal

/-- Inner loop of the undirected pass of `connectAdj`: find the index and edge
value of the first entry of `l` whose name equals `target` (the reciprocal
adjacency entry), as Python's `enumerate` + `break` does. -/
def findBack (l : List (String × Int)) (target : String) : Option (Nat × Int) :=
  match l with
  | [] => none
  | (nm, v) :: rest =>
    if nm = target then some (0, v)
    else (findBack rest target).map (fun jw => (jw.1 + 1, jw.2))

/-- One iteration of the undirected `connectAdj` loop body for `nodeName` at
iterator index `i`: read the entry at `i`, pop the reciprocal entry from the
adjacent node's list (computing the merged edge value), pop index `i` from this
node's list (raising `IndexError` when the index is out of range, as
`list.pop` does), and append the merged entry at both ends.  Aliasing between
the two lists when the entry is a self-loop is reflected by reading the
dictionary again after every update. -/
def connectStep (routingType : Routing) (nodeName : String) (i : Nat)
    (m : ObjDict) : Option PyErr × ObjDict :=
  match (getNode m nodeName).adjacencies.get? i with
  | none => (none, m)
  | some (adjName, adjEdgeVal) =>
    let res : Int × ObjDict :=
      match findBack (getNode m adjName).adjacencies nodeName with
      | some jw =>
        (symEdgeVal routingType adjEdgeVal jw.2,
         updNode m adjName
           { getNode m adjName with
             adjacencies := (getNode m adjName).adjacencies.eraseIdx jw.1 })
      | none => (adjEdgeVal, m)
    let nodeEdgeVal := res.1
    let m1 := res.2
    if i < (getNode m1 nodeName).adjacencies.length then
      let m2 := updNode m1 nodeName
        { getNode m1 nodeName with
          adjacencies := (getNode m1 nodeName).adjacencies.eraseIdx i }
      let m3 := updNode m2 nodeName
        { getNode m2 nodeName with
          adjacencies := (getNode m2 nodeName).adjacencies ++ [(adjName, nodeEdgeVal)] }
      let m4 := updNode m3 adjName
        { getNode m3 adjName with
          adjacencies := (getNode m3 adjName).adjacencies ++ [(nodeName, nodeEdgeVal)] }
      (none, m4)
    else (some .indexError, m1)

/-- Python's `for i, _ in enumerate(node.adjacencies)` over the mutating list:
the iterator index advances by one per iteration and is compared against the
current list length before each read.  The fuel is instantiated with the list
length at loop entry, which the loop body preserves in error-free
executions. -/
def connectNodeLoop (routingType : Routing) (nodeName : String) :
    Nat → Nat → ObjDict → Option PyErr × ObjDict
  | 0, _, m => (none, m)
  | fuel + 1, i, m =>
    if i < (getNode m nodeName).adjacencies.length then
      match connectStep routingType nodeName i m with
      | (some e, m') => (some e, m')
      | (none, m') => connectNodeLoop routingType nodeName fuel (i + 1) m'
    else (none, m)

/-- Undirected pass of `connectAdj`: run the enumerate loop for every node key in
dictionary order. -/
def connectUndirected (routingType : Routing) :
    List String → ObjDict → Option PyErr × ObjDict
  | [], m => (none, m)
  | nodeName :: rest, m =>
    match connectNodeLoop routingType nodeName
        ((getNode m nodeName).adjacencies.length) 0 m with
    | (some e, m') => (some e, m')
    | (none, m') => connectUndirected routingType rest m'

/-- `Graph.connectAdj`: load the declared adjacencies into the node objects and,
in undirected mode, symmetrize every reciprocal edge pair according to the
active routing type. -/
def Graph.connectAdj (g : Graph) : Option PyErr × Graph :=
  let m := loadAdjacencies g.nodeAdjDict g.nodeObjDict
  if g.directed then (none, { g with nodeObjDict := m })
  else
    let r := connectUndirected g.routingType (Graph.keys g) m
    (r.1, { g with nodeObjDict := r.2 })

/-- One relaxation test of the scan in `routeFromN1toN2`: node `nodeNm` (already
verified visited) has the adjacency entry `(adjName, w)`; when that entry points
at the node `n` currently being processed, test the objective-specific
improvement condition and update `n`'s fields.  In the least-cost branch the
new hop count is read from the adjacency entry's endpoint (`adjNode`, which is
`n` itself), exactly as in the source. -/
def relaxViaEdge (routingType : Routing) (m : ObjDict) (nodeNm n : String)
    (adjName : String) (w : Int) : ObjDict :=
  if adjName = n then
    if routingType = .bestBandwidth then
      if (getNode m nodeNm).lowestBwPipeToRoot > (getNode m n).lowestBwPipeToRoot ∧
          w > (getNode m n).lowestBwPipeToRoot then
        updNode m n
          { getNode m n with
            upstreamNodeToRoot := nodeNm
            lowestBwPipeToRoot := min (getNode m nodeNm).lowestBwPipeToRoot w
            valueToRoot := (getNode m nodeNm).valueToRoot + w
            numHopsFromRoot := (getNode m nodeNm).numHopsFromRoot + 1 }
      else m
    else if routingType = .leastCost then
      if (getNode m nodeNm).valueToRoot + w < (getNode m n).valueToRoot then
        updNode m n
          { getNode m n with
            upstreamNodeToRoot := nodeNm
            valueToRoot := (getNode m nodeNm).valueToRoot + w
            lowestBwPipeToRoot := min (getNode m nodeNm).lowestBwPipeToRoot w
            numHopsFromRoot := (getNode m adjName).numHopsFromRoot + 1 }
      else m
    else m
  else m

/-- Relaxation scan over the adjacency list of one visited node `nodeNm`. -/
def relaxScanNode (routingType : Routing) (nodeNm n : String) (m : ObjDict) :
    ObjDict :=
  ((getNode m nodeNm).adjacencies).foldl
    (fun acc p => relaxViaEdge routingType acc nodeNm n p.1 p.2) m

/-- Full relaxation scan performed when `n` is dequeued: every node in the
dictionary that has been visited (`numHopsFromRoot != -1`) is scanned for
adjacency entries pointing at `n`. -/
def relaxScan (routingType : Routing) (ks : List String) (n : String)
    (m : ObjDict) : ObjDict :=
  ks.foldl
    (fun acc nodeNm =>
      if (getNode acc nodeNm).numHopsFromRoot ≠ -1 then
        relaxScanNode routingType nodeNm n acc
      else acc)
    m

/-- Expansion step: initialize every not-yet-visited adjacent node of `n` and
append it to the processing queue (Python's `appendleft` plus right-`pop` is a
FIFO queue; the queue is modelled with enqueue-at-tail, dequeue-at-head). -/
def expandNode (n : String) (st : ObjDict × List String) : ObjDict × List String :=
  ((getNode st.1 n).adjacencies).foldl
    (fun acc p =>
      if (getNode acc.1 p.1).numHopsFromRoot = -1 then
        (updNode acc.1 p.1
          { getNode acc.1 p.1 with
            numHopsFromRoot := (getNode acc.1 n).numHopsFromRoot + 1
            upstreamNodeToRoot := n
            lowestBwPipeToRoot := min (getNode acc.1 n).lowestBwPipeToRoot p.2
            valueToRoot := (getNode acc.1 n).valueToRoot + p.2 },
         acc.2 ++ [p.1])
      else acc)
    st

/-- Breadth-first processing loop of `routeFromN1toN2`: dequeue a node, run the
relaxation scan on it, then expand its unvisited neighbors.  Every node is
enqueued at most once, so `keys.length` iterations always suffice. -/
def routeLoop (routingType : Routing) (ks : List String) :
    Nat → ObjDict → List String → ObjDict × List String
  | 0, m, q => (m, q)
  | fuel + 1, m, q =>
    match q with
    | [] => (m, [])
    | n :: rest =>
      let m1 := relaxScan routingType ks n m
      let st2 := expandNode n (m1, rest)
      routeLoop routingType ks fuel st2.1 st2.2

/-- Reset loop of `routeFromN1toN2` (`resetNode` on every node object). -/
def resetAllNodes (g : Graph) : Graph :=
  { g with
    nodeObjDict :=
      (Graph.keys g).foldl
        (fun acc nodeName => updNode acc nodeName (Node.init nodeName))
        g.nodeObjDict }

/-- `Graph.routeFromN1toN2`: validate both node names (raising before any state
change), save the request parameters, reset all node state, rebuild the
adjacencies for the active routing type, seed the root, and run the
breadth-first loop. -/
def Graph.routeFromN1toN2 (g : Graph) (node1Name node2Name : String)
    (routingType : Routing) : Option PyErr × Graph :=
  if !((Graph.keys g).contains node1Name) then (some (.undefinedNode node1Name), g)
  else if !((Graph.keys g).contains node2Name) then (some (.undefinedNode node2Name), g)
  else
    let g1 := { g with rootNodeName := node1Name, node2Name := node2Name,
                       routingType := routingType }
    let g2 := resetAllNodes g1
    let c := Graph.connectAdj g2
    match c.1 with
    | some e => (some e, c.2)
    | none =>
      let g3 := c.2
      let seeded := updNode g3.nodeObjDict node1Name
        { getNode g3.nodeObjDict node1Name with numHopsFromRoot := 0, valueToRoot := 0 }
      let fin := routeLoop routingType (Graph.keys g3) (Graph.keys g3).length
        seeded [node1Name]
      (none, { g3 with nodeObjDict := fin.1 })

/-- Back-trace loop of `getPathAndParamsNode`: follow `upstreamNodeToRoot` until
a node points at itself, collecting the visited names.  `none` models fuel
exhaustion, i.e. divergence of the Python `while` loop on a cyclic pointer
chain. -/
def pathLoop (m : ObjDict) : Nat → String → List String → Option (List String)
  | 0, usNode, path =>
    if (getNode m usNode).upstreamNodeToRoot = usNode then some path else none
  | fuel + 1, usNode, path =>
    if (getNode m usNode).upstreamNodeToRoot = usNode then some path
    else
      pathLoop m fuel ((getNode m usNode).upstreamNodeToRoot)
        (path ++ [(getNode m usNode).upstreamNodeToRoot])

/-- `Graph.getPathAndParamsNode`: substitute the saved `node2Name` for an empty
argument, look the end node up in the object dictionary (a raw `KeyError` for an
undeclared name), back-trace and reverse the path, and return it with the end
node's value, lowest-bandwidth-pipe and hop-count fields.  The `Option` result
is `none` exactly when the Python back-trace loop diverges. -/
def Graph.getPathAndParamsNode (g : Graph) (endNode : String) :
    Except PyErr (Option (List String × Int × Int × Int)) :=
  let endNode' := if endNode = "" then g.node2Name else endNode
  match g.nodeObjDict.find? (fun p => p.1 = endNode') with
  | none => .error (.keyError endNode')
  | some _ =>
    match pathLoop g.nodeObjDict g.nodeObjDict.length endNode' [endNode'] with
    | some path =>
      .ok (some (path.reverse,
        (getNode g.nodeObjDict endNode').valueToRoot,
        (getNode g.nodeObjDict endNode').lowestBwPipeToRoot,
        (getNode g.nodeObjDict endNode').numHopsFromRoot))
    | none => .ok none

/-! ### Concrete scenario of the specification (the repository's example graph) -/

/-- Example node adjacency dictionary used by the specification's concrete
scenarios (and by the repository's driver and tests). -/
def demoSpec : GraphSpec :=
  [("a", [("b", 3)]),
   ("b", [("a", 5), ("c", 5), ("d", 9)]),
   ("c", [("b", 23), ("d", 7)]),
   ("d", [("b", 1), ("c", 6)]),
   ("e", [("d", 8)]),
   ("f", [("g", 8)]),
   ("g", [("f", 10)])]

/-- The graph object built from `demoSpec` (directed or undirected). -/
def demoGraph (direct : Bool) : Graph :=
  { nodeAdjDict := demoSpec
    directed := direct
    rootNodeName := ""
    node2Name := ""
    routingType := .minHopCount
    nodeObjDict := demoSpec.map (fun p => (p.1, Node.init p.1)) }

/-- Directed routing run of the concrete scenario: root `a`, objective
MaxBottleneckBandwidth. -/
def demoDirectedBw : Option PyErr × Graph :=
  (demoGraph true).routeFromN1toN2 "a" "c" .bestBandwidth

/-- Undirected routing run of the concrete scenario: root `a`, objective
MinCost. -/
def demoUndirectedCost : Option PyErr × Graph :=
  (demoGraph false).routeFromN1toN2 "a" "c" .leastCost

/-- The construction of the demo graph succeeds (its adjacencies validate). -/
theorem demoGraph_init (direct : Bool) :
    Graph.init demoSpec direct = .ok (demoGraph direct) := by
  cases direct <;> rfl

/-- C1: on the example graph, in directed mode with root `a` and objective
MaxBottleneckBandwidth, the query for `c` returns `(['a','b','c'], 8, 3, 2)` and
the query for `e` returns `(['e'], -1, 999, -1)`; in undirected mode with root
`a` and objective MinCost, the query for `d` returns `(['a','b','d'], 4, 1, 2)`
and the query for `e` returns `(['a','b','d','e'], 12, 1, 3)`.  Both routing
requests complete without error. -/
theorem demo_concrete_scenarios :
    demoDirectedBw.1 = none ∧
    demoDirectedBw.2.getPathAndParamsNode "c" =
      .ok (some (["a", "b", "c"], 8, 3, 2)) ∧
    demoDirectedBw.2.getPathAndParamsNode "e" =
      .ok (some (["e"], -1, 999, -1)) ∧
    demoUndirectedCost.1 = none ∧
    demoUndirectedCost.2.getPathAndParamsNode "d" =
      .ok (some (["a", "b", "d"], 4, 1, 2)) ∧
    demoUndirectedCost.2.getPathAndParamsNode "e" =
      .ok (some (["a", "b", "d", "e"], 12, 1, 3)) := by
  refine ⟨rfl, rfl, rfl, rfl, rfl, rfl⟩

/-! ### Failing inputs for the relaxation optimality properties -/

/-- Directed graph on which the MinCost triangle inequality fails: `u` is
improved (via `x`) only after its downstream neighbor `v` has already been
processed, and `v` is never re-relaxed. -/
def triSpec : GraphSpec :=
  [("r", [("v", 10), ("u", 20), ("x", 1)]),
   ("v", []),
   ("u", [("v", 1)]),
   ("x", [("u", 1)])]

/-- The graph object built from `triSpec`. -/
def triGraph : Graph :=
  { nodeAdjDict := triSpec
    directed := true
    rootNodeName := ""
    node2Name := ""
    routingType := .minHopCount
    nodeObjDict := triSpec.map (fun p => (p.1, Node.init p.1)) }

/-- The completed MinCost routing pass on `triSpec` from root `r`. -/
def triRun : Option PyErr × Graph :=
  triGraph.routeFromN1toN2 "r" "v" .leastCost

/-- C2 failing input: construction of `triGraph` validates, the MinCost routing
pass completes without error, the final adjacency of `u` contains the edge
`(u, v, 1)`, both `u` and `v` are reachable (`numHopsFromRoot != -1`), yet
`valueToRoot v = 10 > valueToRoot u + 1 = 3`: the triangle inequality claimed
by the specification is violated by the code. -/
theorem minCost_triangle_violation :
    Graph.init triSpec true = .ok triGraph ∧
    triRun.1 = none ∧
    ("v", 1) ∈ (getNode triRun.2.nodeObjDict "u").adjacencies ∧
    (getNode triRun.2.nodeObjDict "u").numHopsFromRoot ≠ -1 ∧
    (getNode triRun.2.nodeObjDict "v").numHopsFromRoot ≠ -1 ∧
    (getNode triRun.2.nodeObjDict "v").valueToRoot = 10 ∧
    (getNode triRun.2.nodeObjDict "u").valueToRoot = 2 ∧
    ¬((getNode triRun.2.nodeObjDict "v").valueToRoot ≤
        (getNode triRun.2.nodeObjDict "u").valueToRoot + 1) := by
  refine ⟨rfl, rfl, by decide, by decide, by decide, rfl, rfl, by decide⟩

/-- Directed graph on which the MaxBottleneckBandwidth local optimality fails:
`u`'s bottleneck improves (via `x`) only after its downstream neighbor `v` has
already been processed. -/
def bwSpec : GraphSpec :=
  [("r", [("v", 5), ("u", 6), ("x", 100)]),
   ("v", []),
   ("u", [("v", 100)]),
   ("x", [("u", 100)])]

/-- The graph object built from `bwSpec`. -/
def bwGraph : Graph :=
  { nodeAdjDict := bwSpec
    directed := true
    rootNodeName := ""
    node2Name := ""
    routingType := .minHopCount
    nodeObjDict := bwSpec.map (fun p => (p.1, Node.init p.1)) }

/-- The completed MaxBottleneckBandwidth routing pass on `bwSpec` from root `r`. -/
def bwRun : Option PyErr × Graph :=
  bwGraph.routeFromN1toN2 "r" "v" .bestBandwidth

/-- C3 failing input: construction of `bwGraph` validates, the bandwidth routing
pass completes without error, the final adjacency of `u` contains the edge
`(u, v, 100)`, both `u` and `v` are reachable, yet
`bottleneckToRoot v = 6 < min(bottleneckToRoot u, 100) = 100`: the bottleneck
property claimed by the specification is violated by the code. -/
theorem bottleneck_optimality_violation :
    Graph.init bwSpec true = .ok bwGraph ∧
    bwRun.1 = none ∧
    ("v", 100) ∈ (getNode bwRun.2.nodeObjDict "u").adjacencies ∧
    (getNode bwRun.2.nodeObjDict "u").numHopsFromRoot ≠ -1 ∧
    (getNode bwRun.2.nodeObjDict "v").numHopsFromRoot ≠ -1 ∧
    (getNode bwRun.2.nodeObjDict "v").lowestBwPipeToRoot = 6 ∧
    (getNode bwRun.2.nodeObjDict "u").lowestBwPipeToRoot = 100 ∧
    ¬(min (getNode bwRun.2.nodeObjDict "u").lowestBwPipeToRoot 100 ≤
        (getNode bwRun.2.nodeObjDict "v").lowestBwPipeToRoot) := by
  refine ⟨rfl, rfl, by decide, by decide, by decide, rfl, rfl, by decide⟩

/-! ### Failing input for the symmetrization property -/

/-- Undirected graph spec on which the symmetrizer fails to merge an edge pair:
the `enumerate` loop of `connectAdj` pops the current index and appends a
replacement entry, so the iterator skips every other list element; the entry
`(y, 2)` of `a` and the entry `(a, 3)` of `y` are both skipped and the edge
`a - y` is never merged. -/
def skipSpec : GraphSpec :=
  [("a", [("x", 1), ("y", 2)]),
   ("x", [("a", 1)]),
   ("y", [("p", 1), ("a", 3)]),
   ("p", [("y", 1)])]

/-- The graph object built from `skipSpec` (undirected). -/
def skipGraph : Graph :=
  { nodeAdjDict := skipSpec
    directed := false
    rootNodeName := ""
    node2Name := ""
    routingType := .minHopCount
    nodeObjDict := skipSpec.map (fun p => (p.1, Node.init p.1)) }

/-- The symmetrization pass exactly as performed by a MinCost routing request in
undirected mode (state reset followed by `connectAdj`, lines 185-188 of the
source). -/
def skipRun : Option PyErr × Graph :=
  (resetAllNodes { skipGraph with routingType := .leastCost }).connectAdj

/-- C5 failing input: `skipSpec` declares the edge `a - y` in both directions
with weights 2 and 3, and MinCost symmetrization should install
`min(2, 3) = 2` on both ends; but after the pass `a`'s entry for `y` still has
weight 2 while `y`'s entry for `a` still has weight 3 — the two directional
weights were never merged into a single symmetric value. -/
theorem symmetrization_skips_edge :
    Graph.init skipSpec false = .ok skipGraph ∧
    skipRun.1 = none ∧
    (getNode skipRun.2.nodeObjDict "a").adjacencies = [("y", 2), ("x", 1)] ∧
    (getNode skipRun.2.nodeObjDict "y").adjacencies = [("a", 3), ("p", 1)] ∧
    ¬∀ w1 w2, ("y", w1) ∈ (getNode skipRun.2.nodeObjDict "a").adjacencies →
      ("a", w2) ∈ (getNode skipRun.2.nodeObjDict "y").adjacencies → w1 = w2 := by
  refine ⟨rfl, rfl, rfl, rfl, ?_⟩
  intro h
  have := h 2 3 (by decide) (by decide)
  exact absurd this (by decide)

/-! ### Basic dictionary lemmas -/

/-- Key list of a node-object dictionary. -/
def keysOf (m : ObjDict) : List String :=
  m.map Prod.fst

theorem keysOf_updNode (m : ObjDict) (name : String) (nd : Node) :
    keysOf (updNode m name nd) = keysOf m := by
  induction m with
  | nil => rfl
  | cons p rest ih =>
    simp only [keysOf, updNode, List.map_cons] at *
    by_cases h : p.1 = name <;> simp [h, ih]

theorem getNode_cons (q : String × Node) (l : ObjDict) (x : String) :
    getNode (q :: l) x = if q.1 = x then q.2 else getNode l x := by
  by_cases h : q.1 = x <;> simp [getNode, List.find?, h]

theorem updNode_cons (q : String × Node) (l : ObjDict) (name : String) (nd : Node) :
    updNode (q :: l) name nd =
      (if q.1 = name then (q.1, nd) else q) :: updNode l name nd := by
  simp [updNode]

theorem getNode_updNode_self (m : ObjDict) (name : String) (nd : Node)
    (h : name ∈ keysOf m) : getNode (updNode m name nd) name = nd := by
  induction m with
  | nil => simp [keysOf] at h
  | cons p rest ih =>
    rw [updNode_cons, getNode_cons]
    by_cases hp : p.1 = name
    · simp [hp]
    · have h' : name ∈ keysOf rest := by
        simp only [keysOf, List.map_cons, List.mem_cons] at h
        rcases h with h | h
        · exact absurd h.symm hp
        · exact h
      simp only [if_neg hp]
      exact ih h'

theorem getNode_updNode_ne (m : ObjDict) (name : String) (nd : Node)
    (x : String) (h : x ≠ name) : getNode (updNode m name nd) x = getNode m x := by
  induction m with
  | nil => rfl
  | cons p rest ih =>
    rw [updNode_cons, getNode_cons, getNode_cons]
    by_cases hp : p.1 = name
    · have hx : ¬ p.1 = x := fun hc => h (hc.symm.trans hp)
      rw [if_pos hp]
      simp only [if_neg (show ¬ (p.1 = x) from hx)]
      exact ih
    · rw [if_neg hp]
      by_cases hx : p.1 = x
      · rw [if_pos hx, if_pos hx]
      · rw [if_neg hx, if_neg hx]
        exact ih

theorem contains_iff_mem_str (l : List String) (a : String) :
    l.contains a = true ↔ a ∈ l :=
  List.elem_iff

/-! ### C8: hop-count formula of the MinCost relaxation branch -/

/-- C8: whenever the MinCost improvement condition holds and the relaxation is
applied to the processed node `n` via the visited node `nodeNm` through an edge
of weight `w` (so the adjacency endpoint `adjNode` is `n` itself), the updated
`numHopsFromRoot` of `n` equals `n`'s own prior hop count plus one — and hence
differs from `nodeNm`'s hop count plus one whenever those prior hop counts
differ (unlike the MaxBottleneckBandwidth branch, which uses the upstream
node's hop count). -/
theorem minCost_relax_hops_from_endpoint
    (m : ObjDict) (nodeNm n : String) (w : Int) (hn : n ∈ keysOf m)
    (himp : (getNode m nodeNm).valueToRoot + w < (getNode m n).valueToRoot) :
    (getNode (relaxViaEdge .leastCost m nodeNm n n w) n).numHopsFromRoot =
      (getNode m n).numHopsFromRoot + 1 ∧
    ((getNode m n).numHopsFromRoot ≠ (getNode m nodeNm).numHopsFromRoot →
      (getNode (relaxViaEdge .leastCost m nodeNm n n w) n).numHopsFromRoot ≠
        (getNode m nodeNm).numHopsFromRoot + 1) := by
  have hstep : relaxViaEdge .leastCost m nodeNm n n w =
      updNode m n
        { getNode m n with
          upstreamNodeToRoot := nodeNm
          valueToRoot := (getNode m nodeNm).valueToRoot + w
          lowestBwPipeToRoot := min (getNode m nodeNm).lowestBwPipeToRoot w
          numHopsFromRoot := (getNode m n).numHopsFromRoot + 1 } := by
    rw [relaxViaEdge]
    rw [if_pos rfl, if_neg (by decide : ¬ (Routing.leastCost = Routing.bestBandwidth)),
      if_pos rfl, if_pos himp]
  have hget : (getNode (relaxViaEdge .leastCost m nodeNm n n w) n).numHopsFromRoot =
      (getNode m n).numHopsFromRoot + 1 := by
    rw [hstep, getNode_updNode_self m n _ hn]
  refine ⟨hget, fun hne => ?_⟩
  rw [hget]
  intro hc
  exact hne (by omega)

/-- Dictionary used to exercise the MinCost relaxation branch at a concrete
input. -/
def relaxDemoDict : ObjDict :=
  [("u", { adjacencies := []
           numHopsFromRoot := 5
           upstreamNodeToRoot := "u"
           valueToRoot := 10
           lowestBwPipeToRoot := 7 }),
   ("p", { adjacencies := [("u", 3)]
           numHopsFromRoot := 2
           upstreamNodeToRoot := "p"
           valueToRoot := 1
           lowestBwPipeToRoot := 9 })]

/-- Witness for C8: on `relaxDemoDict`, relaxing `u` via `p` with edge weight 3
(improvement `1 + 3 < 10` holds) sets `u`'s hop count to its own prior value
plus one (6), which differs from `p`'s hop count plus one (3). -/
theorem minCost_relax_hops_from_endpoint_witness :
    (getNode (relaxViaEdge .leastCost relaxDemoDict "p" "u" "u" 3) "u").numHopsFromRoot =
      (getNode relaxDemoDict "u").numHopsFromRoot + 1 ∧
    ((getNode relaxDemoDict "u").numHopsFromRoot ≠
        (getNode relaxDemoDict "p").numHopsFromRoot →
      (getNode (relaxViaEdge .leastCost relaxDemoDict "p" "u" "u" 3) "u").numHopsFromRoot ≠
        (getNode relaxDemoDict "p").numHopsFromRoot + 1) :=
  minCost_relax_hops_from_endpoint relaxDemoDict "p" "u" 3 (by decide) (by decide)

/-! ### C9: the two validation errors -/

theorem checkAdjacencies_none_sound (ks : List String) :
    ∀ spec : GraphSpec, checkAdjacencies ks spec = none →
      ∀ p ∈ spec, ∀ q ∈ p.2, q.1 ∈ ks := by
  intro spec
  induction spec with
  | nil => intro _ p hp; simp at hp
  | cons hd rest ih =>
    intro h p hp q hq
    obtain ⟨nodeName, adjL⟩ := hd
    rw [checkAdjacencies] at h
    rcases hfind : adjL.find? (fun p => !(ks.contains p.1)) with _ | bad
    · rw [hfind] at h
      rcases List.mem_cons.mp hp with hp1 | hp2
      · subst hp1
        have := (List.find?_eq_none.mp hfind) q hq
        have hc : ks.contains q.1 = true := by
          by_contra hcc
          simp only [Bool.not_eq_true] at hcc
          exact this (by rw [hcc]; rfl)
        exact (contains_iff_mem_str ks q.1).mp hc
      · exact ih h p hp2 q hq
    · rw [hfind] at h
      exact absurd h (by simp)

theorem checkAdjacencies_shape (ks : List String) :
    ∀ spec : GraphSpec, checkAdjacencies ks spec = none ∨
      ∃ u v, checkAdjacencies ks spec = some (.undefinedAdjacency u v) ∧ v ∉ ks := by
  intro spec
  induction spec with
  | nil => exact Or.inl rfl
  | cons hd rest ih =>
    obtain ⟨nodeName, adjL⟩ := hd
    rcases hfind : adjL.find? (fun p => !(ks.contains p.1)) with _ | bad
    · rcases ih with h | ⟨u, v, h, hv⟩
      · exact Or.inl (by rw [checkAdjacencies, hfind]; exact h)
      · exact Or.inr ⟨u, v, by rw [checkAdjacencies, hfind]; exact h, hv⟩
    · refine Or.inr ⟨nodeName, bad.1, by rw [checkAdjacencies, hfind], ?_⟩
      have := List.find?_some hfind
      intro hmem
      have hc := (contains_iff_mem_str ks bad.1).mpr hmem
      rw [hc] at this
      exact absurd this (by decide)

/-- C9: (1) construction from any GraphSpec containing a neighbor identifier
absent from the key set fails with the undefined-adjacency validation error;
(2) a routing request whose root or target identifier is not a declared node
key fails with the unknown-node validation error, raised at request time before
any state reset: the returned graph object is the unchanged input object, so
every node's computed fields are unchanged. -/
theorem validation_errors :
    (∀ (spec : GraphSpec) (direct : Bool) (nodeName : String)
        (adjL : List (String × Int)) (adjName : String) (w : Int),
        (nodeName, adjL) ∈ spec → (adjName, w) ∈ adjL → adjName ∉ specKeys spec →
        ∃ u v, Graph.init spec direct = .error (.undefinedAdjacency u v) ∧
          v ∉ specKeys spec) ∧
    (∀ (g : Graph) (node1Name node2Name : String) (routingType : Routing),
        node1Name ∉ Graph.keys g ∨ node2Name ∉ Graph.keys g →
        ∃ nm, nm ∉ Graph.keys g ∧
          g.routeFromN1toN2 node1Name node2Name routingType =
            (some (.undefinedNode nm), g)) := by
  constructor
  · intro spec direct nodeName adjL adjName w hmem hadj habs
    rcases checkAdjacencies_shape (specKeys spec) spec with h | ⟨u, v, h, hv⟩
    · exact absurd (checkAdjacencies_none_sound _ spec h (nodeName, adjL) hmem
        (adjName, w) hadj) habs
    · exact ⟨u, v, by rw [Graph.init, h], hv⟩
  · intro g node1Name node2Name routingType h
    by_cases h1 : node1Name ∈ Graph.keys g
    · have h2 : node2Name ∉ Graph.keys g := by
        rcases h with h | h
        · exact absurd h1 h
        · exact h
      have hc1 : (Graph.keys g).contains node1Name = true :=
        (contains_iff_mem_str _ _).mpr h1
      have hc2 : (Graph.keys g).contains node2Name = false := by
        by_contra hcc
        simp only [Bool.not_eq_false] at hcc
        exact h2 ((contains_iff_mem_str _ _).mp hcc)
      refine ⟨node2Name, h2, ?_⟩
      rw [Graph.routeFromN1toN2, hc1, hc2]
      rfl
    · have hc1 : (Graph.keys g).contains node1Name = false := by
        by_contra hcc
        simp only [Bool.not_eq_false] at hcc
        exact h1 ((contains_iff_mem_str _ _).mp hcc)
      refine ⟨node1Name, h1, ?_⟩
      rw [Graph.routeFromN1toN2, hc1]
      rfl

/-- Witness for C9: the spec `{'a': [('z', 3)]}` fails construction with the
undefined-adjacency error, and a routing request for the undeclared root `z`
on the demo graph fails with the unknown-node error leaving the graph object
unchanged. -/
theorem validation_errors_witness :
    (∃ u v, Graph.init [("a", [("z", 3)])] true = .error (.undefinedAdjacency u v) ∧
      v ∉ specKeys [("a", [("z", 3)])]) ∧
    (∃ nm, nm ∉ Graph.keys (demoGraph true) ∧
      (demoGraph true).routeFromN1toN2 "z" "c" .bestBandwidth =
        (some (.undefinedNode nm), demoGraph true)) :=
  ⟨validation_errors.1 [("a", [("z", 3)])] true "a" [("z", 3)] "z" 3
      (by decide) (by decide) (by decide),
   validation_errors.2 (demoGraph true) "z" "c" .bestBandwidth
      (Or.inl (by decide))⟩

/-! ### C10: path queries on undeclared identifiers -/

/-- Counterexample to the literal C10 claim: the empty string is not a declared
node key of the demo graph, yet after the directed bandwidth routing run the
query `getPathAndParamsNode ""` does not raise a `KeyError` — the source
substitutes the saved `node2Name` (here `c`) for an empty argument and returns
that node's result. -/
theorem getPath_empty_string_no_keyError :
    "" ∉ Graph.keys demoDirectedBw.2 ∧
    demoDirectedBw.2.getPathAndParamsNode "" =
      .ok (some (["a", "b", "c"], 8, 3, 2)) :=
  ⟨by decide, rfl⟩

/-- C10 (amended): for every graph whose two dictionaries share their key list
and every nonempty identifier `e` that is not a declared node key, the path
query performs no validation and fails with a raw dictionary-lookup `KeyError`
(not one of the two defined validation errors). -/
theorem getPath_undeclared_keyError (g : Graph) (e : String)
    (hne : e ≠ "") (hk : keysOf g.nodeObjDict = Graph.keys g)
    (he : e ∉ Graph.keys g) :
    g.getPathAndParamsNode e = .error (.keyError e) := by
  have hfind : g.nodeObjDict.find? (fun p => p.1 = e) = none := by
    refine List.find?_eq_none.mpr (fun p hp => ?_)
    have hpk : p.1 ∈ keysOf g.nodeObjDict := List.mem_map_of_mem Prod.fst hp
    rw [hk] at hpk
    intro hc
    have : p.1 = e := by simpa using hc
    exact he (this ▸ hpk)
  rw [Graph.getPathAndParamsNode]
  simp only [if_neg hne, hfind]

/-- Witness for the amended C10 claim: querying the undeclared identifier `zz`
on the routed demo graph raises `KeyError`. -/
theorem getPath_undeclared_keyError_witness :
    demoDirectedBw.2.getPathAndParamsNode "zz" = .error (.keyError "zz") :=
  getPath_undeclared_keyError demoDirectedBw.2 "zz" (by decide) (by decide)
    (by decide)

/-! ### C6: idempotence of the symmetrization pass -/

attribute [ext] Graph

/-- The adjacency-(re)building pass exactly as a routing request performs it:
reset every node's state, then `connectAdj` (source lines 185-188). -/
def symPass (g : Graph) : Option PyErr × Graph :=
  (resetAllNodes g).connectAdj

theorem keysOf_loadAdjacencies (spec : GraphSpec) :
    ∀ m : ObjDict, keysOf (loadAdjacencies spec m) = keysOf m := by
  induction spec with
  | nil => intro m; rfl
  | cons p rest ih =>
    intro m
    rw [loadAdjacencies, List.foldl_cons]
    have := ih (updNode m p.1
      { getNode m p.1 with adjacencies := (getNode m p.1).adjacencies ++ p.2 })
    rw [loadAdjacencies] at this
    rw [this, keysOf_updNode]

theorem keysOf_connectStep (routingType : Routing) (nodeName : String) (i : Nat)
    (m : ObjDict) : keysOf (connectStep routingType nodeName i m).2 = keysOf m := by
  rw [connectStep]
  cases hget : (getNode m nodeName).adjacencies.get? i with
  | none => rfl
  | some entry =>
    obtain ⟨adjName, adjEdgeVal⟩ := entry
    cases hfb : findBack (getNode m adjName).adjacencies nodeName with
    | none =>
      simp only [hfb]
      split <;> simp [keysOf_updNode]
    | some jw =>
      simp only [hfb]
      split <;> simp [keysOf_updNode]

theorem keysOf_connectNodeLoop (routingType : Routing) (nodeName : String) :
    ∀ (fuel i : Nat) (m : ObjDict),
      keysOf (connectNodeLoop routingType nodeName fuel i m).2 = keysOf m := by
  intro fuel
  induction fuel with
  | zero => intro i m; rfl
  | succ fuel ih =>
    intro i m
    rw [connectNodeLoop]
    split
    · rcases hcs : connectStep routingType nodeName i m with ⟨e, m'⟩
      have hk : keysOf m' = keysOf m := by
        have := keysOf_connectStep routingType nodeName i m
        rw [hcs] at this
        exact this
      cases e with
      | none => simpa [hk] using (ih (i + 1) m').trans hk
      | some err => simpa using hk
    · rfl

theorem keysOf_connectUndirected (routingType : Routing) :
    ∀ (ks : List String) (m : ObjDict),
      keysOf (connectUndirected routingType ks m).2 = keysOf m := by
  intro ks
  induction ks with
  | nil => intro m; rfl
  | cons k rest ih =>
    intro m
    rw [connectUndirected]
    rcases hcl : connectNodeLoop routingType k
        ((getNode m k).adjacencies.length) 0 m with ⟨e, m'⟩
    have hk : keysOf m' = keysOf m := by
      have := keysOf_connectNodeLoop routingType k
        ((getNode m k).adjacencies.length) 0 m
      rw [hcl] at this
      exact this
    cases e with
    | none => simpa using (ih m').trans hk
    | some err => simpa using hk

theorem connectAdj_statics (g : Graph) :
    (Graph.connectAdj g).2.nodeAdjDict = g.nodeAdjDict ∧
    (Graph.connectAdj g).2.directed = g.directed ∧
    (Graph.connectAdj g).2.rootNodeName = g.rootNodeName ∧
    (Graph.connectAdj g).2.node2Name = g.node2Name ∧
    (Graph.connectAdj g).2.routingType = g.routingType ∧
    keysOf (Graph.connectAdj g).2.nodeObjDict = keysOf g.nodeObjDict := by
  rw [Graph.connectAdj]
  split
  · exact ⟨rfl, rfl, rfl, rfl, rfl, keysOf_loadAdjacencies _ _⟩
  · refine ⟨rfl, rfl, rfl, rfl, rfl, ?_⟩
    simp only
    exact (keysOf_connectUndirected _ _ _).trans (keysOf_loadAdjacencies _ _)

theorem resetAllNodes_statics (g : Graph) :
    (resetAllNodes g).nodeAdjDict = g.nodeAdjDict ∧
    (resetAllNodes g).directed = g.directed ∧
    (resetAllNodes g).rootNodeName = g.rootNodeName ∧
    (resetAllNodes g).node2Name = g.node2Name ∧
    (resetAllNodes g).routingType = g.routingType :=
  ⟨rfl, rfl, rfl, rfl, rfl⟩

theorem foldl_reset_eq_map (ks : List String) :
    ∀ m : ObjDict,
      ks.foldl (fun acc nodeName => updNode acc nodeName (Node.init nodeName)) m =
        m.map (fun p => if p.1 ∈ ks then (p.1, Node.init p.1) else p) := by
  induction ks with
  | nil =>
    intro m
    simp
  | cons k rest ih =>
    intro m
    rw [List.foldl_cons, ih, updNode, List.map_map]
    refine List.map_congr_left (fun p _ => ?_)
    by_cases hk : p.1 = k
    · by_cases hr : p.1 ∈ rest
      · simp [Function.comp, hk, hr]
      · simp [Function.comp, hk, hr]
    · have : (p.1 ∈ k :: rest) ↔ (p.1 ∈ rest) := by
        rw [List.mem_cons]
        exact ⟨fun h => h.resolve_left hk, Or.inr⟩
      by_cases hr : p.1 ∈ rest
      · simp [Function.comp, hk, hr, this]
      · simp [Function.comp, hk, hr, this]

theorem resetAllNodes_canonical (g : Graph)
    (hk : keysOf g.nodeObjDict = Graph.keys g) :
    (resetAllNodes g).nodeObjDict =
      (Graph.keys g).map (fun k => (k, Node.init k)) := by
  rw [resetAllNodes]
  simp only
  rw [foldl_reset_eq_map]
  have h1 : g.nodeObjDict.map (fun p => if p.1 ∈ Graph.keys g then (p.1, Node.init p.1) else p) =
      g.nodeObjDict.map (fun p => (p.1, Node.init p.1)) := by
    refine List.map_congr_left (fun p hp => ?_)
    have : p.1 ∈ Graph.keys g := by
      rw [← hk]
      exact List.mem_map_of_mem Prod.fst hp
    simp [this]
  rw [h1, ← hk, keysOf, List.map_map]
  rfl

/-- C6: the symmetrization pass of a routing request (state reset followed by
`connectAdj`) is idempotent as a state transformer: running it a second time
returns the same error status and the same graph state, so in particular it
yields identical adjacency weights both times, and re-running it on the
already-symmetrized state reproduces exactly the weights that state already
has. -/
theorem symPass_idempotent (g : Graph) (_hundirected : g.directed = false)
    (hk : keysOf g.nodeObjDict = Graph.keys g) :
    symPass (symPass g).2 = symPass g ∧
    ∀ k, (getNode (symPass (symPass g).2).2.nodeObjDict k).adjacencies =
      (getNode (symPass g).2.nodeObjDict k).adjacencies := by
  have hresetkeys : ∀ h : Graph, keysOf (resetAllNodes h).nodeObjDict =
      keysOf h.nodeObjDict := by
    intro h
    rw [resetAllNodes]
    simp only
    rw [foldl_reset_eq_map, keysOf, List.map_map]
    refine List.map_congr_left (fun p _ => ?_)
    by_cases hm : p.1 ∈ Graph.keys h <;> simp [Function.comp, hm]
  have hreset : resetAllNodes (symPass g).2 = resetAllNodes g := by
    obtain ⟨ca1, ca2, ca3, ca4, ca5, ca6⟩ := connectAdj_statics (resetAllNodes g)
    have hadj1 : (symPass g).2.nodeAdjDict = g.nodeAdjDict := by
      rw [symPass]; exact ca1
    have hkeys1 : Graph.keys (symPass g).2 = Graph.keys g := by
      rw [Graph.keys, hadj1]; rfl
    have hk1 : keysOf (symPass g).2.nodeObjDict = Graph.keys (symPass g).2 := by
      rw [hkeys1]
      calc keysOf (symPass g).2.nodeObjDict
          = keysOf (resetAllNodes g).nodeObjDict := by rw [symPass]; exact ca6
        _ = keysOf g.nodeObjDict := hresetkeys g
        _ = Graph.keys g := hk
    apply Graph.ext
    · rw [(resetAllNodes_statics _).1, (resetAllNodes_statics _).1, hadj1]
    · rw [(resetAllNodes_statics _).2.1, (resetAllNodes_statics _).2.1, symPass]
      exact ca2
    · rw [(resetAllNodes_statics _).2.2.1, (resetAllNodes_statics _).2.2.1, symPass]
      exact ca3
    · rw [(resetAllNodes_statics _).2.2.2.1, (resetAllNodes_statics _).2.2.2.1, symPass]
      exact ca4
    · rw [(resetAllNodes_statics _).2.2.2.2, (resetAllNodes_statics _).2.2.2.2, symPass]
      exact ca5
    · rw [resetAllNodes_canonical _ hk1, resetAllNodes_canonical _ hk, hkeys1]
  have hmain : symPass (symPass g).2 = symPass g := by
    rw [symPass, hreset, symPass]
  exact ⟨hmain, fun k => by rw [hmain]⟩

/-- Witness for C6: the pass is idempotent on the undirected demo graph. -/
theorem symPass_idempotent_witness :
    symPass (symPass (demoGraph false)).2 = symPass (demoGraph false) ∧
    ∀ k, (getNode (symPass (symPass (demoGraph false)).2).2.nodeObjDict k).adjacencies =
      (getNode (symPass (demoGraph false)).2.nodeObjDict k).adjacencies :=
  symPass_idempotent (demoGraph false) rfl (by decide)

/-! ### Routing-loop invariant (for the back-pointer and unreachable-node claims)

The remaining development proves an inductive invariant of the breadth-first
loop of `routeFromN1toN2`: upstream pointers of visited nodes always form
root-terminated chains (given nonnegative edge weights, the specification's
stated precondition), and unvisited nodes keep their pristine sentinel state.
-/

/-- A node `x` is visited (reached) in dictionary state `m`. -/
def disc (m : ObjDict) (x : String) : Prop :=
  (getNode m x).numHopsFromRoot ≠ -1

/-- The upstream-pointer function of a dictionary state. -/
def upF (m : ObjDict) : String → String :=
  fun x => (getNode m x).upstreamNodeToRoot

/-- Reachability from the root along the runtime adjacency `A`. -/
inductive Reach (A : String → List (String × Int)) (root : String) : String → Prop
  | refl : Reach A root root
  | step {x y : String} {w : Int} : Reach A root x → (y, w) ∈ A x → Reach A root y

/-- Strict per-objective potential comparing an upstream node to its downstream
node: cost does not decrease downstream, bottleneck bandwidth does not increase
downstream, hop count strictly increases downstream. -/
def pot : Routing → Node → Node → Prop
  | .leastCost => fun p x => p.valueToRoot ≤ x.valueToRoot
  | .bestBandwidth => fun p x => x.lowestBwPipeToRoot ≤ p.lowestBwPipeToRoot
  | .minHopCount => fun p x => p.numHopsFromRoot < x.numHopsFromRoot

/-- Reflexive-transitive version of `pot`, used along whole upstream chains. -/
def potLe : Routing → Node → Node → Prop
  | .leastCost => fun p x => p.valueToRoot ≤ x.valueToRoot
  | .bestBandwidth => fun p x => x.lowestBwPipeToRoot ≤ p.lowestBwPipeToRoot
  | .minHopCount => fun p x => p.numHopsFromRoot ≤ x.numHopsFromRoot

theorem potLe_refl (rt : Routing) (a : Node) : potLe rt a a := by
  cases rt <;> simp [potLe]

theorem potLe_trans (rt : Routing) {a b c : Node} (h1 : potLe rt a b)
    (h2 : potLe rt b c) : potLe rt a c := by
  cases rt <;> simp only [potLe] at * <;> omega

theorem pot_potLe (rt : Routing) {a b : Node} (h : pot rt a b) : potLe rt a b := by
  cases rt <;> simp only [pot, potLe] at * <;> omega

/-- The loop invariant of the breadth-first routing loop, relative to the
objective `rt`, the key list `ks`, the root, and the fixed runtime adjacency
`A` built by `connectAdj`. -/
structure RouteInv (rt : Routing) (ks : List String) (root : String)
    (A : String → List (String × Int)) (m : ObjDict) (q : List String) : Prop where
  adjEq : ∀ x, (getNode m x).adjacencies = A x
  closed : ∀ x, ∀ e ∈ A x, e.1 ∈ ks
  nonneg : ∀ x, ∀ e ∈ A x, 0 ≤ e.2
  keysEq : keysOf m = ks
  rootMem : root ∈ ks
  rootState : (getNode m root).numHopsFromRoot = 0 ∧
    (getNode m root).valueToRoot = 0 ∧
    (getNode m root).lowestBwPipeToRoot = 999 ∧
    (getNode m root).upstreamNodeToRoot = root
  hopsLB : ∀ x, -1 ≤ (getNode m x).numHopsFromRoot
  pristine : ∀ x, ¬ disc m x →
    (getNode m x).upstreamNodeToRoot = x ∧ (getNode m x).valueToRoot = -1 ∧
    (getNode m x).lowestBwPipeToRoot = 999
  discMem : ∀ x, disc m x → x ∈ ks
  discReach : ∀ x, disc m x → Reach A root x
  discBounds : ∀ x, disc m x →
    0 ≤ (getNode m x).valueToRoot ∧ (getNode m x).lowestBwPipeToRoot ≤ 999
  upSelf : ∀ x, disc m x → x ≠ root → upF m x ≠ x
  upDisc : ∀ x, disc m x → upF m x ≠ x →
    disc m (upF m x) ∧ pot rt (getNode m (upF m x)) (getNode m x)
  chain : ∀ x, disc m x → ∃ k, (upF m)^[k] x = root
  queueDisc : ∀ x ∈ q, disc m x

theorem iterate_congr_of_avoid (f g : String → String) (n : String)
    (hagree : ∀ y, y ≠ n → g y = f y) :
    ∀ (k : Nat) (x : String), (∀ t, t < k → f^[t] x ≠ n) → g^[k] x = f^[k] x := by
  intro k
  induction k with
  | zero => intro x _; rfl
  | succ k ih =>
    intro x havoid
    rw [Function.iterate_succ_apply, Function.iterate_succ_apply]
    have hx : x ≠ n := by
      have := havoid 0 (Nat.succ_pos k)
      simpa using this
    rw [hagree x hx]
    refine ih (f x) (fun t ht => ?_)
    have := havoid (t + 1) (by omega)
    rwa [Function.iterate_succ_apply] at this

theorem chain_through (f g : String → String) (n p root : String)
    (hagree : ∀ y, y ≠ n → g y = f y) (hgn : g n = p)
    (hp : ∃ kp, f^[kp] p = root ∧ ∀ t, f^[t] p ≠ n) :
    ∃ k', g^[k'] n = root := by
  obtain ⟨kp, hkp, havoid⟩ := hp
  refine ⟨kp + 1, ?_⟩
  rw [Function.iterate_succ_apply, hgn,
    iterate_congr_of_avoid f g n hagree kp p (fun t _ => havoid t)]
  exact hkp

theorem reach_root_update (f g : String → String) (n p root : String)
    (hagree : ∀ y, y ≠ n → g y = f y) (hgn : g n = p)
    (hp : ∃ kp, f^[kp] p = root ∧ ∀ t, f^[t] p ≠ n) :
    ∀ (k : Nat) (x : String), f^[k] x = root → ∃ k', g^[k'] x = root := by
  intro k
  induction k with
  | zero =>
    intro x hx
    exact ⟨0, hx⟩
  | succ k ih =>
    intro x hx
    by_cases hxn : x = n
    · rw [hxn]
      exact chain_through f g n p root hagree hgn hp
    · have hstep : f^[k] (f x) = root := by
        rw [← Function.iterate_succ_apply]
        exact hx
      obtain ⟨k', hk'⟩ := ih (f x) hstep
      refine ⟨k' + 1, ?_⟩
      rw [Function.iterate_succ_apply, hagree x hxn]
      exact hk'

theorem pot_along (rt : Routing) (ks : List String) (root : String)
    (A : String → List (String × Int)) (m : ObjDict) (q : List String)
    (inv : RouteInv rt ks root A m q) (p : String) (hp : disc m p) :
    ∀ t, disc m ((upF m)^[t] p) ∧
      potLe rt (getNode m ((upF m)^[t] p)) (getNode m p) := by
  intro t
  induction t with
  | zero => exact ⟨hp, potLe_refl rt _⟩
  | succ t ih =>
    obtain ⟨hd, hle⟩ := ih
    rw [Function.iterate_succ_apply']
    by_cases hself : upF m ((upF m)^[t] p) = (upF m)^[t] p
    · rw [hself]
      exact ⟨hd, hle⟩
    · obtain ⟨hd', hpot⟩ := inv.upDisc _ hd hself
      exact ⟨hd', potLe_trans rt (pot_potLe rt hpot) hle⟩

theorem update_inv (rt : Routing) (ks : List String) (root : String)
    (A : String → List (String × Int)) (m : ObjDict) (q : List String)
    (inv : RouteInv rt ks root A m q) (n p : String) (ndNew : Node)
    (hn : disc m n) (hp : disc m p) (hnp : p ≠ n) (hnroot : n ≠ root)
    (hadjEq : ndNew.adjacencies = A n)
    (hhops : 0 ≤ ndNew.numHopsFromRoot)
    (hup : ndNew.upstreamNodeToRoot = p)
    (hval : 0 ≤ ndNew.valueToRoot) (hbw : ndNew.lowestBwPipeToRoot ≤ 999)
    (hpotup : pot rt (getNode m p) ndNew)
    (hpotchild : ∀ x, disc m x → upF m x ≠ x → upF m x = n →
      pot rt ndNew (getNode m x))
    (havoid : ∀ t, (upF m)^[t] p ≠ n) :
    RouteInv rt ks root A (updNode m n ndNew) q ∧
    (∀ x, disc m x → disc (updNode m n ndNew) x) := by
  have hkey : n ∈ keysOf m := by
    rw [inv.keysEq]
    exact inv.discMem n hn
  have hGn : getNode (updNode m n ndNew) n = ndNew :=
    getNode_updNode_self m n ndNew hkey
  have hGx : ∀ x, x ≠ n → getNode (updNode m n ndNew) x = getNode m x :=
    fun x hx => getNode_updNode_ne m n ndNew x hx
  have hdiscn : disc (updNode m n ndNew) n := by
    rw [disc, hGn]
    omega
  have hmono : ∀ x, disc m x → disc (updNode m n ndNew) x := by
    intro x hx
    by_cases hxn : x = n
    · rw [hxn]; exact hdiscn
    · rw [disc, hGx x hxn]; exact hx
  have hdisc' : ∀ x, x ≠ n → disc (updNode m n ndNew) x → disc m x := by
    intro x hxn hx
    rw [disc, hGx x hxn] at hx
    exact hx
  have hupF : ∀ x, x ≠ n → upF (updNode m n ndNew) x = upF m x := by
    intro x hxn
    rw [upF, upF, hGx x hxn]
  have hupFn : upF (updNode m n ndNew) n = p := by
    rw [upF, hGn, hup]
  refine ⟨⟨?_, inv.closed, inv.nonneg, ?_, inv.rootMem, ?_, ?_, ?_, ?_, ?_, ?_, ?_,
    ?_, ?_, ?_⟩, hmono⟩
  · intro x
    by_cases hxn : x = n
    · rw [hxn, hGn, hadjEq]
    · rw [hGx x hxn]; exact inv.adjEq x
  · rw [keysOf_updNode]; exact inv.keysEq
  · rw [hGx root (fun hc => hnroot hc.symm)]
    exact inv.rootState
  · intro x
    by_cases hxn : x = n
    · rw [hxn, hGn]; omega
    · rw [hGx x hxn]; exact inv.hopsLB x
  · intro x hx
    by_cases hxn : x = n
    · exact absurd (hxn ▸ hdiscn) hx
    · rw [disc, hGx x hxn] at hx
      rw [hGx x hxn]
      exact inv.pristine x hx
  · intro x hx
    by_cases hxn : x = n
    · rw [hxn]; exact inv.discMem n hn
    · exact inv.discMem x (hdisc' x hxn hx)
  · intro x hx
    by_cases hxn : x = n
    · rw [hxn]; exact inv.discReach n hn
    · exact inv.discReach x (hdisc' x hxn hx)
  · intro x hx
    by_cases hxn : x = n
    · rw [hxn, hGn]; exact ⟨hval, hbw⟩
    · rw [hGx x hxn]; exact inv.discBounds x (hdisc' x hxn hx)
  · intro x hx hxroot
    by_cases hxn : x = n
    · rw [hxn, hupFn]; exact fun hc => hnp (hc.trans hxn.symm ▸ hc)
    · rw [hupF x hxn]
      exact inv.upSelf x (hdisc' x hxn hx) hxroot
  · intro x hx hself
    by_cases hxn : x = n
    · rw [hxn, hupFn] at *
      refine ⟨hmono p hp, ?_⟩
      rw [hGx p hnp, hxn, hGn]
      exact hpotup
    · rw [hupF x hxn] at *
      have hxd := hdisc' x hxn hx
      obtain ⟨hud, hupot⟩ := inv.upDisc x hxd hself
      by_cases hun : upF m x = n
      · refine ⟨hun ▸ hdiscn, ?_⟩
        rw [hun, hGn, hGx x hxn]
        exact hpotchild x hxd hself hun
      · refine ⟨by rw [disc, hGx _ hun]; exact hud, ?_⟩
        rw [hGx _ hun, hGx x hxn]
        exact hupot
  · intro x hx
    have hagree : ∀ y, y ≠ n → upF (updNode m n ndNew) y = upF m y := hupF
    have hpchain : ∃ kp, (upF m)^[kp] p = root ∧ ∀ t, (upF m)^[t] p ≠ n := by
      obtain ⟨kp, hkp⟩ := inv.chain p hp
      exact ⟨kp, hkp, havoid⟩
    by_cases hxn : x = n
    · rw [hxn]
      exact chain_through (upF m) (upF (updNode m n ndNew)) n p root hagree
        hupFn hpchain
    · obtain ⟨k, hk⟩ := inv.chain x (hdisc' x hxn hx)
      exact reach_root_update (upF m) (upF (updNode m n ndNew)) n p root hagree
        hupFn hpchain k x hk
  · intro x hxq
    exact hmono x (inv.queueDisc x hxq)

theorem relaxViaEdge_inv (rt : Routing) (ks : List String) (root : String)
    (A : String → List (String × Int)) (m : ObjDict) (q : List String)
    (inv : RouteInv rt ks root A m q) (nodeNm n adjName : String) (w : Int)
    (hvis : disc m nodeNm) (hn : disc m n)
    (hmem : (adjName, w) ∈ A nodeNm) :
    RouteInv rt ks root A (relaxViaEdge rt m nodeNm n adjName w) q ∧
    (∀ x, disc m x → disc (relaxViaEdge rt m nodeNm n adjName w) x) := by
  by_cases hadj : adjName = n
  · have hw : 0 ≤ w := inv.nonneg nodeNm (adjName, w) hmem
    have hhopsn : 0 ≤ (getNode m n).numHopsFromRoot := by
      have h1 := inv.hopsLB n
      rw [disc] at hn
      omega
    have hhopsm : 0 ≤ (getNode m nodeNm).numHopsFromRoot := by
      have h1 := inv.hopsLB nodeNm
      rw [disc] at hvis
      omega
    have hvalm : 0 ≤ (getNode m nodeNm).valueToRoot := (inv.discBounds nodeNm hvis).1
    have hbwm : (getNode m nodeNm).lowestBwPipeToRoot ≤ 999 :=
      (inv.discBounds nodeNm hvis).2
    cases rt with
    | minHopCount =>
      rw [relaxViaEdge, if_pos hadj, if_neg (by decide : ¬ (Routing.minHopCount = Routing.bestBandwidth)),
        if_neg (by decide : ¬ (Routing.minHopCount = Routing.leastCost))]
      exact ⟨inv, fun _ hx => hx⟩
    | bestBandwidth =>
      rw [relaxViaEdge, if_pos hadj, if_pos rfl]
      by_cases hg : (getNode m nodeNm).lowestBwPipeToRoot > (getNode m n).lowestBwPipeToRoot ∧
          w > (getNode m n).lowestBwPipeToRoot
      · rw [if_pos hg]
        have hnp : nodeNm ≠ n := by
          intro hc
          rw [hc] at hg
          exact lt_irrefl _ hg.1
        have hnroot : n ≠ root := by
          intro hc
          rw [hc] at hg
          rw [inv.rootState.2.2.1] at hg
          omega
        refine update_inv Routing.bestBandwidth ks root A m q inv n nodeNm _
          hn hvis hnp hnroot (inv.adjEq n) (by simp; omega) rfl
          (by simp; omega) (by simp; omega) ?_ ?_ ?_
        · show min (getNode m nodeNm).lowestBwPipeToRoot w ≤
            (getNode m nodeNm).lowestBwPipeToRoot
          exact min_le_left _ _
        · intro x hx hself hun
          obtain ⟨_, hupot⟩ := inv.upDisc x hx hself
          rw [hun] at hupot
          show (getNode m x).lowestBwPipeToRoot ≤ min (getNode m nodeNm).lowestBwPipeToRoot w
          have h1 : (getNode m x).lowestBwPipeToRoot ≤ (getNode m n).lowestBwPipeToRoot :=
            hupot
          have h2 : (getNode m n).lowestBwPipeToRoot <
              min (getNode m nodeNm).lowestBwPipeToRoot w := lt_min hg.1 hg.2
          omega
        · intro t hc
          have h1 := (pot_along Routing.bestBandwidth ks root A m q inv nodeNm hvis t).2
          rw [hc] at h1
          have h2 : (getNode m nodeNm).lowestBwPipeToRoot ≤
              (getNode m n).lowestBwPipeToRoot := h1
          omega
      · rw [if_neg hg]
        exact ⟨inv, fun _ hx => hx⟩
    | leastCost =>
      rw [relaxViaEdge, if_pos hadj, if_neg (by decide : ¬ (Routing.leastCost = Routing.bestBandwidth)),
        if_pos rfl]
      by_cases hg : (getNode m nodeNm).valueToRoot + w < (getNode m n).valueToRoot
      · rw [if_pos hg]
        have hnp : nodeNm ≠ n := by
          intro hc
          rw [hc] at hg
          omega
        have hnroot : n ≠ root := by
          intro hc
          rw [hc, inv.rootState.2.1] at hg
          omega
        have hhopsadj : 0 ≤ (getNode m adjName).numHopsFromRoot := by
          rw [hadj]
          exact hhopsn
        refine update_inv Routing.leastCost ks root A m q inv n nodeNm _
          hn hvis hnp hnroot (inv.adjEq n) (by simp; omega) rfl
          (by simp; omega) (by simp; omega) ?_ ?_ ?_
        · show (getNode m nodeNm).valueToRoot ≤ (getNode m nodeNm).valueToRoot + w
          omega
        · intro x hx hself hun
          obtain ⟨_, hupot⟩ := inv.upDisc x hx hself
          rw [hun] at hupot
          show (getNode m nodeNm).valueToRoot + w ≤ (getNode m x).valueToRoot
          have h1 : (getNode m n).valueToRoot ≤ (getNode m x).valueToRoot := hupot
          omega
        · intro t hc
          have h1 := (pot_along Routing.leastCost ks root A m q inv nodeNm hvis t).2
          rw [hc] at h1
          have h2 : (getNode m n).valueToRoot ≤ (getNode m nodeNm).valueToRoot := h1
          omega
      · rw [if_neg hg]
        exact ⟨inv, fun _ hx => hx⟩
  · rw [relaxViaEdge, if_neg hadj]
    exact ⟨inv, fun _ hx => hx⟩

theorem discover_inv (rt : Routing) (ks : List String) (root : String)
    (A : String → List (String × Int)) (m : ObjDict) (q : List String)
    (inv : RouteInv rt ks root A m q) (n y : String) (w : Int)
    (hn : disc m n) (hmem : (y, w) ∈ A n) (hundisc : ¬ disc m y) :
    RouteInv rt ks root A
      (updNode m y
        { getNode m y with
          numHopsFromRoot := (getNode m n).numHopsFromRoot + 1
          upstreamNodeToRoot := n
          lowestBwPipeToRoot := min (getNode m n).lowestBwPipeToRoot w
          valueToRoot := (getNode m n).valueToRoot + w })
      (q ++ [y]) ∧
    (∀ x, disc m x →
      disc (updNode m y
        { getNode m y with
          numHopsFromRoot := (getNode m n).numHopsFromRoot + 1
          upstreamNodeToRoot := n
          lowestBwPipeToRoot := min (getNode m n).lowestBwPipeToRoot w
          valueToRoot := (getNode m n).valueToRoot + w }) x) := by
  set ndNew : Node :=
    { getNode m y with
      numHopsFromRoot := (getNode m n).numHopsFromRoot + 1
      upstreamNodeToRoot := n
      lowestBwPipeToRoot := min (getNode m n).lowestBwPipeToRoot w
      valueToRoot := (getNode m n).valueToRoot + w } with hnd
  have hw : 0 ≤ w := inv.nonneg n (y, w) hmem
  have hyks : y ∈ ks := inv.closed n (y, w) hmem
  have hykey : y ∈ keysOf m := by rw [inv.keysEq]; exact hyks
  have hyn : y ≠ n := fun hc => hundisc (by rw [hc]; exact hn)
  have hrd : disc m root := by
    rw [disc, inv.rootState.1]
    omega
  have hyroot : y ≠ root := fun hc => hundisc (by rw [hc]; exact hrd)
  have hhopsn : 0 ≤ (getNode m n).numHopsFromRoot := by
    have h1 := inv.hopsLB n
    rw [disc] at hn
    omega
  have hGy : getNode (updNode m y ndNew) y = ndNew :=
    getNode_updNode_self m y ndNew hykey
  have hGx : ∀ x, x ≠ y → getNode (updNode m y ndNew) x = getNode m x :=
    fun x hx => getNode_updNode_ne m y ndNew x hx
  have hdiscy : disc (updNode m y ndNew) y := by
    rw [disc, hGy, hnd]
    simp
    omega
  have hmono : ∀ x, disc m x → disc (updNode m y ndNew) x := by
    intro x hx
    by_cases hxy : x = y
    · rw [hxy]; exact hdiscy
    · rw [disc, hGx x hxy]; exact hx
  have hdisc' : ∀ x, x ≠ y → disc (updNode m y ndNew) x → disc m x := by
    intro x hxy hx
    rw [disc, hGx x hxy] at hx
    exact hx
  have hupF : ∀ x, x ≠ y → upF (updNode m y ndNew) x = upF m x := by
    intro x hxy
    rw [upF, upF, hGx x hxy]
  have hupFy : upF (updNode m y ndNew) y = n := by
    rw [upF, hGy, hnd]
  have havoid : ∀ t, (upF m)^[t] n ≠ y := by
    intro t hc
    have h1 := (pot_along rt ks root A m q inv n hn t).1
    rw [hc] at h1
    exact hundisc h1
  refine ⟨⟨?_, inv.closed, inv.nonneg, ?_, inv.rootMem, ?_, ?_, ?_, ?_, ?_, ?_, ?_,
    ?_, ?_, ?_⟩, hmono⟩
  · intro x
    by_cases hxy : x = y
    · rw [hxy, hGy, hnd]
      exact inv.adjEq y
    · rw [hGx x hxy]; exact inv.adjEq x
  · rw [keysOf_updNode]; exact inv.keysEq
  · rw [hGx root (fun hc => hyroot hc.symm)]
    exact inv.rootState
  · intro x
    by_cases hxy : x = y
    · rw [hxy, hGy, hnd]; simp; omega
    · rw [hGx x hxy]; exact inv.hopsLB x
  · intro x hx
    by_cases hxy : x = y
    · exact absurd (hxy ▸ hdiscy) hx
    · rw [disc, hGx x hxy] at hx
      rw [hGx x hxy]
      exact inv.pristine x hx
  · intro x hx
    by_cases hxy : x = y
    · rw [hxy]; exact hyks
    · exact inv.discMem x (hdisc' x hxy hx)
  · intro x hx
    by_cases hxy : x = y
    · rw [hxy]; exact Reach.step (inv.discReach n hn) hmem
    · exact inv.discReach x (hdisc' x hxy hx)
  · intro x hx
    by_cases hxy : x = y
    · rw [hxy, hGy, hnd]
      constructor
      · simp
        have := (inv.discBounds n hn).1
        omega
      · simp
        have := (inv.discBounds n hn).2
        omega
    · rw [hGx x hxy]; exact inv.discBounds x (hdisc' x hxy hx)
  · intro x hx hxroot
    by_cases hxy : x = y
    · rw [hxy, hupFy]
      exact fun hc => hyn hc.symm
    · rw [hupF x hxy]
      exact inv.upSelf x (hdisc' x hxy hx) hxroot
  · intro x hx hself
    by_cases hxy : x = y
    · rw [hxy, hupFy] at *
      refine ⟨hmono n hn, ?_⟩
      rw [hGx n hyn.symm, hxy, hGy, hnd]
      cases rt with
      | leastCost => show (getNode m n).valueToRoot ≤ _; simp; omega
      | bestBandwidth =>
        show (Node.lowestBwPipeToRoot _) ≤ (getNode m n).lowestBwPipeToRoot
        simp
      | minHopCount => show (getNode m n).numHopsFromRoot < _; simp
    · rw [hupF x hxy] at *
      have hxd := hdisc' x hxy hx
      obtain ⟨hud, hupot⟩ := inv.upDisc x hxd hself
      have huy : upF m x ≠ y := fun hc => hundisc (hc ▸ hud)
      refine ⟨by rw [disc, hGx _ huy]; exact hud, ?_⟩
      rw [hGx _ huy, hGx x hxy]
      exact hupot
  · intro x hx
    have hagree : ∀ z, z ≠ y → upF (updNode m y ndNew) z = upF m z := hupF
    have hpchain : ∃ kp, (upF m)^[kp] n = root ∧ ∀ t, (upF m)^[t] n ≠ y := by
      obtain ⟨kp, hkp⟩ := inv.chain n hn
      exact ⟨kp, hkp, havoid⟩
    by_cases hxy : x = y
    · rw [hxy]
      exact chain_through (upF m) (upF (updNode m y ndNew)) y n root hagree
        hupFy hpchain
    · obtain ⟨k, hk⟩ := inv.chain x (hdisc' x hxy hx)
      exact reach_root_update (upF m) (upF (updNode m y ndNew)) y n root hagree
        hupFy hpchain k x hk
  · intro x hxq
    rcases List.mem_append.mp hxq with hq | hy
    · exact hmono x (inv.queueDisc x hq)
    · rw [List.mem_singleton.mp hy]
      exact hdiscy

theorem relaxFold_inv (rt : Routing) (ks : List String) (root : String)
    (A : String → List (String × Int)) (nodeNm n : String) :
    ∀ (l : List (String × Int)) (m : ObjDict) (q : List String),
      (∀ p ∈ l, p ∈ A nodeNm) → RouteInv rt ks root A m q →
      disc m nodeNm → disc m n →
      RouteInv rt ks root A
        (l.foldl (fun acc p => relaxViaEdge rt acc nodeNm n p.1 p.2) m) q ∧
      (∀ x, disc m x →
        disc (l.foldl (fun acc p => relaxViaEdge rt acc nodeNm n p.1 p.2) m) x) := by
  intro l
  induction l with
  | nil => intro m q _ inv _ _; exact ⟨inv, fun _ hx => hx⟩
  | cons p l ih =>
    intro m q hsub inv hvis hn
    rw [List.foldl_cons]
    have hmem : (p.1, p.2) ∈ A nodeNm := hsub p (List.mem_cons_self p l)
    obtain ⟨inv1, mono1⟩ :=
      relaxViaEdge_inv rt ks root A m q inv nodeNm n p.1 p.2 hvis hn hmem
    obtain ⟨inv2, mono2⟩ := ih (relaxViaEdge rt m nodeNm n p.1 p.2) q
      (fun r hr => hsub r (List.mem_cons_of_mem p hr)) inv1
      (mono1 nodeNm hvis) (mono1 n hn)
    exact ⟨inv2, fun x hx => mono2 x (mono1 x hx)⟩

theorem relaxScanNode_inv (rt : Routing) (ks : List String) (root : String)
    (A : String → List (String × Int)) (m : ObjDict) (q : List String)
    (inv : RouteInv rt ks root A m q) (nodeNm n : String)
    (hvis : disc m nodeNm) (hn : disc m n) :
    RouteInv rt ks root A (relaxScanNode rt nodeNm n m) q ∧
    (∀ x, disc m x → disc (relaxScanNode rt nodeNm n m) x) := by
  rw [relaxScanNode, inv.adjEq nodeNm]
  exact relaxFold_inv rt ks root A nodeNm n (A nodeNm) m q (fun _ hp => hp) inv hvis hn

theorem relaxScan_inv (rt : Routing) (ks : List String) (root : String)
    (A : String → List (String × Int)) (n : String) :
    ∀ (l : List String) (m : ObjDict) (q : List String),
      RouteInv rt ks root A m q → disc m n →
      RouteInv rt ks root A
        (l.foldl (fun acc nodeNm =>
          if (getNode acc nodeNm).numHopsFromRoot ≠ -1 then
            relaxScanNode rt nodeNm n acc
          else acc) m) q ∧
      (∀ x, disc m x →
        disc (l.foldl (fun acc nodeNm =>
          if (getNode acc nodeNm).numHopsFromRoot ≠ -1 then
            relaxScanNode rt nodeNm n acc
          else acc) m) x) := by
  intro l
  induction l with
  | nil => intro m q inv _; exact ⟨inv, fun _ hx => hx⟩
  | cons nodeNm l ih =>
    intro m q inv hn
    rw [List.foldl_cons]
    by_cases hvis : (getNode m nodeNm).numHopsFromRoot ≠ -1
    · rw [if_pos hvis]
      obtain ⟨inv1, mono1⟩ := relaxScanNode_inv rt ks root A m q inv nodeNm n hvis hn
      obtain ⟨inv2, mono2⟩ := ih (relaxScanNode rt nodeNm n m) q inv1 (mono1 n hn)
      exact ⟨inv2, fun x hx => mono2 x (mono1 x hx)⟩
    · rw [if_neg hvis]
      exact ih m q inv hn

theorem expandFold_inv (rt : Routing) (ks : List String) (root : String)
    (A : String → List (String × Int)) (n : String) :
    ∀ (l : List (String × Int)) (m : ObjDict) (q : List String),
      (∀ p ∈ l, p ∈ A n) → RouteInv rt ks root A m q → disc m n →
      RouteInv rt ks root A
        (l.foldl (fun acc p =>
          if (getNode acc.1 p.1).numHopsFromRoot = -1 then
            (updNode acc.1 p.1
              { getNode acc.1 p.1 with
                numHopsFromRoot := (getNode acc.1 n).numHopsFromRoot + 1
                upstreamNodeToRoot := n
                lowestBwPipeToRoot := min (getNode acc.1 n).lowestBwPipeToRoot p.2
                valueToRoot := (getNode acc.1 n).valueToRoot + p.2 },
             acc.2 ++ [p.1])
          else acc) (m, q)).1
        (l.foldl (fun acc p =>
          if (getNode acc.1 p.1).numHopsFromRoot = -1 then
            (updNode acc.1 p.1
              { getNode acc.1 p.1 with
                numHopsFromRoot := (getNode acc.1 n).numHopsFromRoot + 1
                upstreamNodeToRoot := n
                lowestBwPipeToRoot := min (getNode acc.1 n).lowestBwPipeToRoot p.2
                valueToRoot := (getNode acc.1 n).valueToRoot + p.2 },
             acc.2 ++ [p.1])
          else acc) (m, q)).2 ∧
      (∀ x, disc m x →
        disc (l.foldl (fun acc p =>
          if (getNode acc.1 p.1).numHopsFromRoot = -1 then
            (updNode acc.1 p.1
              { getNode acc.1 p.1 with
                numHopsFromRoot := (getNode acc.1 n).numHopsFromRoot + 1
                upstreamNodeToRoot := n
                lowestBwPipeToRoot := min (getNode acc.1 n).lowestBwPipeToRoot p.2
                valueToRoot := (getNode acc.1 n).valueToRoot + p.2 },
             acc.2 ++ [p.1])
          else acc) (m, q)).1 x) := by
  intro l
  induction l with
  | nil => intro m q _ inv _; exact ⟨inv, fun _ hx => hx⟩
  | cons p l ih =>
    intro m q hsub inv hn
    rw [List.foldl_cons]
    have hmem : (p.1, p.2) ∈ A n := hsub p (List.mem_cons_self p l)
    by_cases hu : (getNode m p.1).numHopsFromRoot = -1
    · rw [if_pos hu]
      have hundisc : ¬ disc m p.1 := by rw [disc]; omega
      obtain ⟨inv1, mono1⟩ := discover_inv rt ks root A m q inv n p.1 p.2 hn hmem hundisc
      obtain ⟨inv2, mono2⟩ := ih _ _ (fun r hr => hsub r (List.mem_cons_of_mem p hr))
        inv1 (mono1 n hn)
      exact ⟨inv2, fun x hx => mono2 x (mono1 x hx)⟩
    · rw [if_neg hu]
      exact ih m q (fun r hr => hsub r (List.mem_cons_of_mem p hr)) inv hn

theorem expandNode_inv (rt : Routing) (ks : List String) (root : String)
    (A : String → List (String × Int)) (m : ObjDict) (q : List String)
    (inv : RouteInv rt ks root A m q) (n : String) (hn : disc m n) :
    RouteInv rt ks root A (expandNode n (m, q)).1 (expandNode n (m, q)).2 ∧
    (∀ x, disc m x → disc (expandNode n (m, q)).1 x) := by
  rw [expandNode]
  simp only
  rw [inv.adjEq n]
  exact expandFold_inv rt ks root A n (A n) m q (fun _ hp => hp) inv hn

theorem routeLoop_inv (rt : Routing) (ks : List String) (root : String)
    (A : String → List (String × Int)) :
    ∀ (fuel : Nat) (m : ObjDict) (q : List String),
      RouteInv rt ks root A m q →
      RouteInv rt ks root A (routeLoop rt ks fuel m q).1 (routeLoop rt ks fuel m q).2 := by
  intro fuel
  induction fuel with
  | zero => intro m q inv; exact inv
  | succ fuel ih =>
    intro m q inv
    rw [routeLoop.eq_def]
    cases q with
    | nil => exact inv
    | cons n rest =>
      have hn : disc m n := inv.queueDisc n (List.mem_cons_self n rest)
      have invr : RouteInv rt ks root A m rest :=
        { inv with queueDisc := fun x hx => inv.queueDisc x (List.mem_cons_of_mem n hx) }
      have hscan := relaxScan_inv rt ks root A n ks m rest invr hn
      rw [← relaxScan] at hscan
      obtain ⟨inv1, mono1⟩ := hscan
      obtain ⟨inv2, _⟩ := expandNode_inv rt ks root A (relaxScan rt ks n m) rest inv1 n
        (mono1 n hn)
      exact ih _ _ inv2

/-! ### Properties of the state produced by reset, `connectAdj` and seeding -/

theorem getNode_not_mem (m : ObjDict) (name : String) (h : name ∉ keysOf m) :
    getNode m name = Node.init name := by
  have hfind : m.find? (fun p => p.1 = name) = none := by
    refine List.find?_eq_none.mpr (fun p hp => ?_)
    intro hc
    have : p.1 = name := by simpa using hc
    exact h (this ▸ List.mem_map_of_mem Prod.fst hp)
  rw [getNode, hfind]

/-- Dynamic (non-adjacency) node fields are equal in two dictionary states. -/
def dynEq (m m' : ObjDict) : Prop :=
  ∀ x, (getNode m' x).numHopsFromRoot = (getNode m x).numHopsFromRoot ∧
    (getNode m' x).upstreamNodeToRoot = (getNode m x).upstreamNodeToRoot ∧
    (getNode m' x).valueToRoot = (getNode m x).valueToRoot ∧
    (getNode m' x).lowestBwPipeToRoot = (getNode m x).lowestBwPipeToRoot

theorem dynEq_refl (m : ObjDict) : dynEq m m :=
  fun _ => ⟨rfl, rfl, rfl, rfl⟩

theorem dynEq_trans {m1 m2 m3 : ObjDict} (h1 : dynEq m1 m2) (h2 : dynEq m2 m3) :
    dynEq m1 m3 := by
  intro x
  obtain ⟨a1, b1, c1, d1⟩ := h1 x
  obtain ⟨a2, b2, c2, d2⟩ := h2 x
  exact ⟨a2.trans a1, b2.trans b1, c2.trans c1, d2.trans d1⟩

theorem dynEq_updNode_adj (m : ObjDict) (name : String) (adj : List (String × Int)) :
    dynEq m (updNode m name { getNode m name with adjacencies := adj }) := by
  intro x
  by_cases hx : x = name
  · by_cases hk : name ∈ keysOf m
    · rw [hx, getNode_updNode_self m name _ hk]
      exact ⟨rfl, rfl, rfl, rfl⟩
    · have hk2 : x ∉ keysOf (updNode m name { getNode m name with adjacencies := adj }) := by
        rw [keysOf_updNode, hx]
        exact hk
      rw [getNode_not_mem _ x hk2, hx, getNode_not_mem m name hk]
      exact ⟨rfl, rfl, rfl, rfl⟩
  · rw [getNode_updNode_ne m name _ x hx]
    exact ⟨rfl, rfl, rfl, rfl⟩

theorem dynEq_loadAdjacencies (spec : GraphSpec) :
    ∀ m : ObjDict, dynEq m (loadAdjacencies spec m) := by
  induction spec with
  | nil => intro m; exact dynEq_refl m
  | cons p rest ih =>
    intro m
    rw [loadAdjacencies, List.foldl_cons]
    have h2 := ih (updNode m p.1
      { getNode m p.1 with adjacencies := (getNode m p.1).adjacencies ++ p.2 })
    rw [loadAdjacencies] at h2
    exact dynEq_trans (dynEq_updNode_adj m p.1 _) h2

theorem dynEq_connectStep (routingType : Routing) (nodeName : String) (i : Nat)
    (m : ObjDict) : dynEq m (connectStep routingType nodeName i m).2 := by
  rw [connectStep]
  cases hget : (getNode m nodeName).adjacencies.get? i with
  | none => exact dynEq_refl m
  | some entry =>
    obtain ⟨adjName, adjEdgeVal⟩ := entry
    cases hfb : findBack (getNode m adjName).adjacencies nodeName with
    | none =>
      simp only [hfb]
      split
      · exact dynEq_trans (dynEq_refl m)
          (dynEq_trans (dynEq_updNode_adj m nodeName _)
            (dynEq_trans (dynEq_updNode_adj _ nodeName _) (dynEq_updNode_adj _ adjName _)))
      · exact dynEq_refl m
    | some jw =>
      simp only [hfb]
      split
      · exact dynEq_trans (dynEq_updNode_adj m adjName _)
          (dynEq_trans (dynEq_updNode_adj _ nodeName _)
            (dynEq_trans (dynEq_updNode_adj _ nodeName _) (dynEq_updNode_adj _ adjName _)))
      · exact dynEq_updNode_adj m adjName _

theorem dynEq_connectNodeLoop (routingType : Routing) (nodeName : String) :
    ∀ (fuel i : Nat) (m : ObjDict),
      dynEq m (connectNodeLoop routingType nodeName fuel i m).2 := by
  intro fuel
  induction fuel with
  | zero => intro i m; exact dynEq_refl m
  | succ fuel ih =>
    intro i m
    rw [connectNodeLoop]
    split
    · rcases hcs : connectStep routingType nodeName i m with ⟨e, m'⟩
      have hd : dynEq m m' := by
        have := dynEq_connectStep routingType nodeName i m
        rw [hcs] at this
        exact this
      cases e with
      | none => exact dynEq_trans hd (ih (i + 1) m')
      | some err => exact hd
    · exact dynEq_refl m

theorem dynEq_connectUndirected (routingType : Routing) :
    ∀ (ks : List String) (m : ObjDict),
      dynEq m (connectUndirected routingType ks m).2 := by
  intro ks
  induction ks with
  | nil => intro m; exact dynEq_refl m
  | cons k rest ih =>
    intro m
    rw [connectUndirected]
    rcases hcl : connectNodeLoop routingType k
        ((getNode m k).adjacencies.length) 0 m with ⟨e, m'⟩
    have hd : dynEq m m' := by
      have := dynEq_connectNodeLoop routingType k
        ((getNode m k).adjacencies.length) 0 m
      rw [hcl] at this
      exact this
    cases e with
    | none => exact dynEq_trans hd (ih m')
    | some err => exact hd

/-- Closedness and nonnegativity of all stored adjacency entries. -/
def GoodAdj (ks : List String) (m : ObjDict) : Prop :=
  ∀ x, ∀ e ∈ (getNode m x).adjacencies, e.1 ∈ ks ∧ 0 ≤ e.2

theorem goodAdj_updNode (ks : List String) (m : ObjDict) (name : String)
    (adj : List (String × Int)) (hm : GoodAdj ks m)
    (hadj : ∀ e ∈ adj, e.1 ∈ ks ∧ 0 ≤ e.2) :
    GoodAdj ks (updNode m name { getNode m name with adjacencies := adj }) := by
  intro x e he
  by_cases hx : x = name
  · by_cases hk : name ∈ keysOf m
    · rw [hx, getNode_updNode_self m name _ hk] at he
      exact hadj e he
    · have hk2 : x ∉ keysOf (updNode m name { getNode m name with adjacencies := adj }) := by
        rw [keysOf_updNode, hx]
        exact hk
      rw [getNode_not_mem _ x hk2] at he
      simp [Node.init] at he
  · rw [getNode_updNode_ne m name _ x hx] at he
    exact hm x e he

theorem findBack_mem (l : List (String × Int)) (target : String) (jw : Nat × Int)
    (h : findBack l target = some jw) : (target, jw.2) ∈ l := by
  induction l generalizing jw with
  | nil => simp [findBack] at h
  | cons p rest ih =>
    obtain ⟨nm, v⟩ := p
    rw [findBack] at h
    by_cases hnm : nm = target
    · rw [if_pos hnm] at h
      have : jw = (0, v) := by
        cases h
        rfl
      rw [this]
      rw [hnm]
      exact List.mem_cons_self _ _
    · rw [if_neg hnm] at h
      cases hfb : findBack rest target with
      | none => rw [hfb] at h; simp at h
      | some jw' =>
        rw [hfb] at h
        have h2 : some ((jw'.1 + 1, jw'.2) : Nat × Int) = some jw := h
        have hmem := ih jw' hfb
        have : jw.2 = jw'.2 := by
          cases h2
          rfl
        rw [this]
        exact List.mem_cons_of_mem _ hmem

theorem symEdgeVal_nonneg (routingType : Routing) (a b : Int) (ha : 0 ≤ a)
    (hb : 0 ≤ b) : 0 ≤ symEdgeVal routingType a b := by
  rw [symEdgeVal]
  split <;> simp only [le_max_iff, le_min_iff] <;> omega

theorem goodAdj_loadAdjacencies (ks : List String) (spec : GraphSpec)
    (hspec : ∀ p ∈ spec, ∀ e ∈ p.2, e.1 ∈ ks ∧ 0 ≤ e.2) :
    ∀ m : ObjDict, GoodAdj ks m → GoodAdj ks (loadAdjacencies spec m) := by
  induction spec with
  | nil => intro m hm; exact hm
  | cons p rest ih =>
    intro m hm
    rw [loadAdjacencies, List.foldl_cons]
    have h1 : GoodAdj ks (updNode m p.1
        { getNode m p.1 with adjacencies := (getNode m p.1).adjacencies ++ p.2 }) := by
      refine goodAdj_updNode ks m p.1 _ hm (fun e he => ?_)
      rcases List.mem_append.mp he with h | h
      · exact hm p.1 e h
      · exact hspec p (List.mem_cons_self p rest) e h
    have := ih (fun r hr => hspec r (List.mem_cons_of_mem p hr)) _ h1
    rw [loadAdjacencies] at this
    exact this

theorem goodAdj_connectStep (ks : List String) (routingType : Routing)
    (nodeName : String) (i : Nat) (m : ObjDict) (hnode : nodeName ∈ ks)
    (hm : GoodAdj ks m) : GoodAdj ks (connectStep routingType nodeName i m).2 := by
  rw [connectStep]
  cases hget : (getNode m nodeName).adjacencies.get? i with
  | none => exact hm
  | some entry =>
    obtain ⟨adjName, adjEdgeVal⟩ := entry
    have hentry := hm nodeName (adjName, adjEdgeVal) (List.get?_mem hget)
    cases hfb : findBack (getNode m adjName).adjacencies nodeName with
    | none =>
      simp only [hfb]
      have hval : 0 ≤ adjEdgeVal := hentry.2
      split
      · refine goodAdj_updNode ks _ adjName _ ?_ (fun e he => ?_)
        · refine goodAdj_updNode ks _ nodeName _ ?_ (fun e he => ?_)
          · refine goodAdj_updNode ks m nodeName _ hm (fun e he => ?_)
            exact hm nodeName e (List.eraseIdx_subset _ _ he)
          · rcases List.mem_append.mp he with h | h
            · exact (goodAdj_updNode ks m nodeName _ hm (fun e' he' =>
                hm nodeName e' (List.eraseIdx_subset _ _ he'))) nodeName e h
            · rw [List.mem_singleton.mp h]
              exact ⟨hentry.1, hval⟩
        · rcases List.mem_append.mp he with h | h
          · refine (goodAdj_updNode ks _ nodeName _ ?_ ?_) adjName e h
            · refine goodAdj_updNode ks m nodeName _ hm (fun e' he' => ?_)
              exact hm nodeName e' (List.eraseIdx_subset _ _ he')
            · intro e' he'
              rcases List.mem_append.mp he' with h' | h'
              · exact (goodAdj_updNode ks m nodeName _ hm (fun e'' he'' =>
                  hm nodeName e'' (List.eraseIdx_subset _ _ he''))) nodeName e' h'
              · rw [List.mem_singleton.mp h']
                exact ⟨hentry.1, hval⟩
          · rw [List.mem_singleton.mp h]
            exact ⟨hnode, hval⟩
      · exact hm
    | some jw =>
      simp only [hfb]
      have hjw : 0 ≤ jw.2 := (hm adjName (nodeName, jw.2) (findBack_mem _ _ jw hfb)).2
      have hval : 0 ≤ symEdgeVal routingType adjEdgeVal jw.2 :=
        symEdgeVal_nonneg routingType adjEdgeVal jw.2 hentry.2 hjw
      have hm1 : GoodAdj ks (updNode m adjName
          { getNode m adjName with
            adjacencies := (getNode m adjName).adjacencies.eraseIdx jw.1 }) := by
        refine goodAdj_updNode ks m adjName _ hm (fun e he => ?_)
        exact hm adjName e (List.eraseIdx_subset _ _ he)
      split
      · refine goodAdj_updNode ks _ adjName _ ?_ (fun e he => ?_)
        · refine goodAdj_updNode ks _ nodeName _ ?_ (fun e he => ?_)
          · refine goodAdj_updNode ks _ nodeName _ hm1 (fun e he => ?_)
            exact hm1 nodeName e (List.eraseIdx_subset _ _ he)
          · rcases List.mem_append.mp he with h | h
            · exact (goodAdj_updNode ks _ nodeName _ hm1 (fun e' he' =>
                hm1 nodeName e' (List.eraseIdx_subset _ _ he'))) nodeName e h
            · rw [List.mem_singleton.mp h]
              exact ⟨hentry.1, hval⟩
        · rcases List.mem_append.mp he with h | h
          · refine (goodAdj_updNode ks _ nodeName _ ?_ ?_) adjName e h
            · refine goodAdj_updNode ks _ nodeName _ hm1 (fun e' he' => ?_)
              exact hm1 nodeName e' (List.eraseIdx_subset _ _ he')
            · intro e' he'
              rcases List.mem_append.mp he' with h' | h'
              · exact (goodAdj_updNode ks _ nodeName _ hm1 (fun e'' he'' =>
                  hm1 nodeName e'' (List.eraseIdx_subset _ _ he''))) nodeName e' h'
              · rw [List.mem_singleton.mp h']
                exact ⟨hentry.1, hval⟩
          · rw [List.mem_singleton.mp h]
            exact ⟨hnode, hval⟩
      · exact hm1

theorem goodAdj_connectNodeLoop (ks : List String) (routingType : Routing)
    (nodeName : String) (hnode : nodeName ∈ ks) :
    ∀ (fuel i : Nat) (m : ObjDict), GoodAdj ks m →
      GoodAdj ks (connectNodeLoop routingType nodeName fuel i m).2 := by
  intro fuel
  induction fuel with
  | zero => intro i m hm; exact hm
  | succ fuel ih =>
    intro i m hm
    rw [connectNodeLoop]
    split
    · rcases hcs : connectStep routingType nodeName i m with ⟨e, m'⟩
      have hg : GoodAdj ks m' := by
        have := goodAdj_connectStep ks routingType nodeName i m hnode hm
        rw [hcs] at this
        exact this
      cases e with
      | none => exact ih (i + 1) m' hg
      | some err => exact hg
    · exact hm

theorem goodAdj_connectUndirected (ks : List String) (routingType : Routing) :
    ∀ (l : List String), (∀ k ∈ l, k ∈ ks) →
      ∀ m : ObjDict, GoodAdj ks m →
        GoodAdj ks (connectUndirected routingType l m).2 := by
  intro l
  induction l with
  | nil => intro _ m hm; exact hm
  | cons k rest ih =>
    intro hsub m hm
    rw [connectUndirected]
    rcases hcl : connectNodeLoop routingType k
        ((getNode m k).adjacencies.length) 0 m with ⟨e, m'⟩
    have hg : GoodAdj ks m' := by
      have := goodAdj_connectNodeLoop ks routingType k (hsub k (List.mem_cons_self k rest))
        ((getNode m k).adjacencies.length) 0 m hm
      rw [hcl] at this
      exact this
    cases e with
    | none => exact ih (fun r hr => hsub r (List.mem_cons_of_mem k hr)) m' hg
    | some err => exact hg

theorem getNode_canonical (ks : List String) (x : String) :
    getNode (ks.map (fun k => (k, Node.init k))) x = Node.init x := by
  induction ks with
  | nil => rfl
  | cons k rest ih =>
    rw [List.map_cons, getNode_cons]
    by_cases hk : k = x
    · rw [if_pos hk, hk]
    · rw [if_neg hk]
      exact ih

theorem keysOf_initObj (spec : GraphSpec) :
    keysOf (spec.map (fun p => (p.1, Node.init p.1))) = specKeys spec := by
  rw [keysOf, List.map_map]
  rfl

theorem dynEq_connectAdj (h : Graph) :
    dynEq h.nodeObjDict (Graph.connectAdj h).2.nodeObjDict := by
  rw [Graph.connectAdj]
  split
  · exact dynEq_loadAdjacencies h.nodeAdjDict h.nodeObjDict
  · simp only
    exact dynEq_trans (dynEq_loadAdjacencies h.nodeAdjDict h.nodeObjDict)
      (dynEq_connectUndirected h.routingType (Graph.keys h) _)

theorem goodAdj_connectAdj (ks : List String) (h : Graph)
    (hspec : ∀ p ∈ h.nodeAdjDict, ∀ e ∈ p.2, e.1 ∈ ks ∧ 0 ≤ e.2)
    (hkeys : ∀ k ∈ Graph.keys h, k ∈ ks)
    (hm : GoodAdj ks h.nodeObjDict) :
    GoodAdj ks (Graph.connectAdj h).2.nodeObjDict := by
  rw [Graph.connectAdj]
  split
  · exact goodAdj_loadAdjacencies ks h.nodeAdjDict hspec h.nodeObjDict hm
  · simp only
    exact goodAdj_connectUndirected ks h.routingType (Graph.keys h) hkeys _
      (goodAdj_loadAdjacencies ks h.nodeAdjDict hspec h.nodeObjDict hm)

theorem keysOf_connectAdj_obj (h : Graph) :
    keysOf (Graph.connectAdj h).2.nodeObjDict = keysOf h.nodeObjDict :=
  (connectAdj_statics h).2.2.2.2.2

theorem nodeAdjDict_connectAdj (h : Graph) :
    (Graph.connectAdj h).2.nodeAdjDict = h.nodeAdjDict :=
  (connectAdj_statics h).1

theorem keysOf_canonical (ks : List String) :
    keysOf (ks.map (fun k => (k, Node.init k))) = ks := by
  rw [keysOf, List.map_map]
  have hid : (Prod.fst ∘ fun k : String => (k, Node.init k)) = id := rfl
  rw [hid, List.map_id]

theorem route_ok_struct (g : Graph) (n1 n2 : String) (rt : Routing) (g' : Graph)
    (hroute : g.routeFromN1toN2 n1 n2 rt = (none, g')) :
    (Graph.keys g).contains n1 = true ∧ (Graph.keys g).contains n2 = true ∧
    ∃ g3, Graph.connectAdj (resetAllNodes
        { g with rootNodeName := n1, node2Name := n2, routingType := rt }) = (none, g3) ∧
      g' = { g3 with nodeObjDict :=
        (routeLoop rt (Graph.keys g3) (Graph.keys g3).length
          (updNode g3.nodeObjDict n1
            { getNode g3.nodeObjDict n1 with numHopsFromRoot := 0, valueToRoot := 0 })
          [n1]).1 } := by
  rw [Graph.routeFromN1toN2] at hroute
  by_cases hb1 : (Graph.keys g).contains n1 = true
  swap
  · rw [Bool.not_eq_true] at hb1
    rw [hb1] at hroute
    simp at hroute
  by_cases hb2 : (Graph.keys g).contains n2 = true
  swap
  · rw [hb1] at hroute
    rw [Bool.not_eq_true] at hb2
    rw [hb2] at hroute
    simp at hroute
  rw [hb1, hb2] at hroute
  simp only [Bool.not_true, Bool.false_eq_true, if_false] at hroute
  refine ⟨hb1, hb2, ?_⟩
  rcases hcA : Graph.connectAdj (resetAllNodes
      { g with rootNodeName := n1, node2Name := n2, routingType := rt }) with ⟨eopt, g3⟩
  rw [hcA] at hroute
  cases eopt with
  | some e => simp at hroute
  | none =>
    simp only at hroute
    exact ⟨g3, rfl, ((Prod.mk.injEq _ _ _ _).mp hroute).2.symm⟩

theorem route_final_inv
    (spec : GraphSpec) (direct : Bool) (rt : Routing) (n1 n2 : String)
    (g g' : Graph)
    (hnonneg : ∀ p ∈ spec, ∀ e ∈ p.2, 0 ≤ e.2)
    (hinit : Graph.init spec direct = .ok g)
    (hroute : g.routeFromN1toN2 n1 n2 rt = (none, g')) :
    ∃ q, RouteInv rt (specKeys spec) n1
      (fun y => (getNode g'.nodeObjDict y).adjacencies) g'.nodeObjDict q := by
  rw [Graph.init] at hinit
  rcases hchk : checkAdjacencies (specKeys spec) spec with _ | err
  swap
  · rw [hchk] at hinit
    exact absurd hinit (by simp)
  rw [hchk] at hinit
  injection hinit with hgeq
  have hgadj : g.nodeAdjDict = spec := by rw [← hgeq]
  have hgobj : g.nodeObjDict = spec.map (fun p => (p.1, Node.init p.1)) := by
    rw [← hgeq]
  have hclosedspec : ∀ p ∈ spec, ∀ e ∈ p.2, e.1 ∈ specKeys spec := by
    intro p hp e he
    exact checkAdjacencies_none_sound (specKeys spec) spec hchk p hp e he
  obtain ⟨hb1, hb2, g3, hcA, hg'⟩ := route_ok_struct g n1 n2 rt g' hroute
  have hkeysg : Graph.keys g = specKeys spec := by
    rw [Graph.keys, hgadj]
    rfl
  set rec2 : Graph :=
    { g with rootNodeName := n1, node2Name := n2, routingType := rt } with hrec2
  have hrecadj : rec2.nodeAdjDict = spec := hgadj
  have hrecobj : rec2.nodeObjDict = spec.map (fun p => (p.1, Node.init p.1)) := hgobj
  have hreckeys : Graph.keys rec2 = specKeys spec := by
    rw [Graph.keys, hrecadj]
    rfl
  have hks_g3 : g3.nodeAdjDict = spec := by
    have h1 := nodeAdjDict_connectAdj (resetAllNodes rec2)
    rw [hcA] at h1
    rw [h1, (resetAllNodes_statics rec2).1, hrecadj]
  have hkeys_g3 : Graph.keys g3 = specKeys spec := by
    rw [Graph.keys, hks_g3]
    rfl
  have hrst : (resetAllNodes rec2).nodeObjDict =
      (specKeys spec).map (fun k => (k, Node.init k)) := by
    have h1 : keysOf rec2.nodeObjDict = Graph.keys rec2 := by
      rw [hrecobj, keysOf_initObj, hreckeys]
    rw [resetAllNodes_canonical rec2 h1, hreckeys]
  have hdynA := dynEq_connectAdj (resetAllNodes rec2)
  rw [hcA] at hdynA
  have hdyn : ∀ x, (getNode g3.nodeObjDict x).numHopsFromRoot = -1 ∧
      (getNode g3.nodeObjDict x).upstreamNodeToRoot = x ∧
      (getNode g3.nodeObjDict x).valueToRoot = -1 ∧
      (getNode g3.nodeObjDict x).lowestBwPipeToRoot = 999 := by
    intro x
    have h := hdynA x
    rw [hrst, getNode_canonical] at h
    exact h
  have hkeysmc : keysOf g3.nodeObjDict = specKeys spec := by
    have h1 := keysOf_connectAdj_obj (resetAllNodes rec2)
    rw [hcA] at h1
    rw [h1, hrst, keysOf_canonical]
  have hgood0 : GoodAdj (specKeys spec) (resetAllNodes rec2).nodeObjDict := by
    rw [hrst]
    intro x e he
    rw [getNode_canonical] at he
    simp [Node.init] at he
  have hgood : GoodAdj (specKeys spec) g3.nodeObjDict := by
    have hsp : ∀ p ∈ (resetAllNodes rec2).nodeAdjDict, ∀ e ∈ p.2,
        e.1 ∈ specKeys spec ∧ 0 ≤ e.2 := by
      rw [(resetAllNodes_statics rec2).1, hrecadj]
      exact fun p hp e he => ⟨hclosedspec p hp e he, hnonneg p hp e he⟩
    have hkk : ∀ k ∈ Graph.keys (resetAllNodes rec2), k ∈ specKeys spec := by
      intro k hk
      rw [Graph.keys, (resetAllNodes_statics rec2).1, hrecadj] at hk
      exact hk
    have h1 := goodAdj_connectAdj (specKeys spec) (resetAllNodes rec2) hsp hkk hgood0
    rw [hcA] at h1
    exact h1
  have hn1 : n1 ∈ specKeys spec := by
    rw [← hkeysg]
    exact (contains_iff_mem_str _ _).mp hb1
  have hn1key : n1 ∈ keysOf g3.nodeObjDict := by
    rw [hkeysmc]
    exact hn1
  set seeded := updNode g3.nodeObjDict n1
    { getNode g3.nodeObjDict n1 with numHopsFromRoot := 0, valueToRoot := 0 }
    with hseed
  have hGn1 : getNode seeded n1 =
      { getNode g3.nodeObjDict n1 with numHopsFromRoot := 0, valueToRoot := 0 } :=
    getNode_updNode_self _ _ _ hn1key
  have hGx : ∀ x, x ≠ n1 → getNode seeded x = getNode g3.nodeObjDict x :=
    fun x hx => getNode_updNode_ne _ _ _ x hx
  have hd1 : disc seeded n1 := by
    rw [disc, hGn1]
    simp
  have hdisc0 : ∀ x, disc seeded x → x = n1 := by
    intro x hx
    by_contra hne
    rw [disc, hGx x hne] at hx
    exact hx (hdyn x).1
  have inv0 : RouteInv rt (specKeys spec) n1
      (fun y => (getNode g3.nodeObjDict y).adjacencies) seeded [n1] := by
    refine ⟨?_, ?_, ?_, ?_, hn1, ?_, ?_, ?_, ?_, ?_, ?_, ?_, ?_, ?_, ?_⟩
    · intro x
      by_cases hx : x = n1
      · rw [hx, hGn1]
      · rw [hGx x hx]
    · intro x e he
      exact (hgood x e he).1
    · intro x e he
      exact (hgood x e he).2
    · rw [hseed, keysOf_updNode, hkeysmc]
    · rw [hGn1]
      refine ⟨rfl, rfl, ?_, ?_⟩
      · exact (hdyn n1).2.2.2
      · exact (hdyn n1).2.1
    · intro x
      by_cases hx : x = n1
      · rw [hx, hGn1]; simp
      · rw [hGx x hx, (hdyn x).1]
    · intro x hx
      have hxn : x ≠ n1 := fun hc => hx (hc ▸ hd1)
      rw [hGx x hxn]
      exact ⟨(hdyn x).2.1, (hdyn x).2.2.1, (hdyn x).2.2.2⟩
    · intro x hx
      rw [hdisc0 x hx]
      exact hn1
    · intro x hx
      rw [hdisc0 x hx]
      exact Reach.refl
    · intro x hx
      rw [hdisc0 x hx, hGn1]
      constructor
      · simp
      · simp
        exact le_of_eq (hdyn n1).2.2.2
    · intro x hx hxroot
      exact absurd (hdisc0 x hx) hxroot
    · intro x hx hself
      rw [hdisc0 x hx] at hself
      rw [upF, hGn1] at hself
      exact absurd (hdyn n1).2.1 hself
    · intro x hx
      rw [hdisc0 x hx]
      exact ⟨0, rfl⟩
    · intro x hx
      rw [List.mem_singleton.mp hx]
      exact hd1
  rw [hkeys_g3] at hg'
  have invF := routeLoop_inv rt (specKeys spec) n1
    (fun y => (getNode g3.nodeObjDict y).adjacencies)
    (specKeys spec).length seeded [n1] inv0
  have hobj : g'.nodeObjDict =
      (routeLoop rt (specKeys spec) (specKeys spec).length seeded [n1]).1 := by
    rw [hg']
  have hA : (fun y => (getNode g'.nodeObjDict y).adjacencies) =
      (fun y => (getNode g3.nodeObjDict y).adjacencies) := by
    funext y
    rw [hobj]
    exact invF.adjEq y
  rw [hA, hobj]
  exact ⟨(routeLoop rt (specKeys spec) (specKeys spec).length seeded [n1]).2, invF⟩

theorem chain_min (rt : Routing) (ks : List String) (root : String)
    (A : String → List (String × Int)) (m : ObjDict) (q : List String)
    (inv : RouteInv rt ks root A m q) (x : String) (hx : disc m x) :
    ∃ k, k < ks.length ∧ (upF m)^[k] x = root ∧
      (∀ t, t < k → (upF m)^[t] x ≠ root) ∧
      (∀ t, t < k → upF m ((upF m)^[t] x) ≠ (upF m)^[t] x) := by
  have hex : ∃ k, (upF m)^[k] x = root := inv.chain x hx
  set km := Nat.find hex with hkm
  have hspec : (upF m)^[km] x = root := Nat.find_spec hex
  have hmin : ∀ t, t < km → (upF m)^[t] x ≠ root := fun t ht hc =>
    absurd (Nat.find_min' hex hc) (by omega)
  have hinj : ∀ s t, s ≤ km → t ≤ km → (upF m)^[s] x = (upF m)^[t] x → s = t := by
    intro s t hs ht heq
    by_contra hne
    rcases Nat.lt_or_ge s t with hlt | hge
    · have hsplit : km = (km - t) + t := by omega
      have : (upF m)^[(km - t) + s] x = root := by
        rw [Function.iterate_add_apply, heq, ← Function.iterate_add_apply, ← hsplit]
        exact hspec
      have hle := Nat.find_min' hex this
      omega
    · have hlt : t < s := by omega
      have hsplit : km = (km - s) + s := by omega
      have : (upF m)^[(km - s) + t] x = root := by
        rw [Function.iterate_add_apply, ← heq, ← Function.iterate_add_apply, ← hsplit]
        exact hspec
      have hle := Nat.find_min' hex this
      omega
  have hdisct : ∀ t, disc m ((upF m)^[t] x) :=
    fun t => (pot_along rt ks root A m q inv x hx t).1
  have hmem : ∀ t, (upF m)^[t] x ∈ ks := fun t => inv.discMem _ (hdisct t)
  have hnodup : ((List.range (km + 1)).map (fun t => (upF m)^[t] x)).Nodup := by
    refine List.Nodup.map_on ?_ (List.nodup_range (km + 1))
    intro s hs t ht heq
    rw [List.mem_range] at hs ht
    exact hinj s t (by omega) (by omega) heq
  have hsub : ((List.range (km + 1)).map (fun t => (upF m)^[t] x)).toFinset ⊆
      ks.toFinset := by
    intro a ha
    rw [List.mem_toFinset] at ha
    obtain ⟨t, _, hta⟩ := List.mem_map.mp ha
    rw [List.mem_toFinset]
    exact hta ▸ hmem t
  have hcard : km + 1 ≤ ks.length := by
    have h1 := List.toFinset_card_of_nodup hnodup
    have h2 := Finset.card_le_card hsub
    have h3 := List.toFinset_card_le ks
    simp only [List.length_map, List.length_range] at h1
    omega
  refine ⟨km, by omega, hspec, hmin, ?_⟩
  intro t ht
  have hd := hdisct t
  have hnr : (upF m)^[t] x ≠ root := hmin t ht
  exact inv.upSelf _ hd hnr

theorem pathLoop_run (m : ObjDict) (root : String) :
    ∀ (k : Nat) (x : String),
      (upF m)^[k] x = root → (∀ t, t < k → (upF m)^[t] x ≠ root) →
      (∀ t, t < k → upF m ((upF m)^[t] x) ≠ (upF m)^[t] x) →
      upF m root = root →
      ∀ fuel, k ≤ fuel → ∀ acc,
        pathLoop m fuel x acc =
          some (acc ++ (List.range k).map (fun t => (upF m)^[t + 1] x)) := by
  intro k
  induction k with
  | zero =>
    intro x hk _ _ hroot fuel _ acc
    have hx : x = root := hk
    cases fuel with
    | zero =>
      rw [pathLoop, if_pos (by rw [hx]; exact hroot)]
      simp
    | succ fuel =>
      rw [pathLoop, if_pos (by rw [hx]; exact hroot)]
      simp
  | succ k ih =>
    intro x hk hnr hns hroot fuel hfuel acc
    obtain ⟨fuel, rfl⟩ : ∃ f, fuel = f + 1 := ⟨fuel - 1, by omega⟩
    have hself : (getNode m x).upstreamNodeToRoot ≠ x := by
      have := hns 0 (by omega)
      simpa [upF] using this
    rw [pathLoop, if_neg hself]
    have hstep : ∀ t, (upF m)^[t] (upF m x) = (upF m)^[t + 1] x := by
      intro t
      rw [← Function.iterate_succ_apply]
    have h1 : (upF m)^[k] (upF m x) = root := by
      rw [hstep]
      exact hk
    have h2 : ∀ t, t < k → (upF m)^[t] (upF m x) ≠ root := by
      intro t ht
      rw [hstep]
      exact hnr (t + 1) (by omega)
    have h3 : ∀ t, t < k → upF m ((upF m)^[t] (upF m x)) ≠ (upF m)^[t] (upF m x) := by
      intro t ht
      rw [hstep]
      exact hns (t + 1) (by omega)
    have hrec := ih (upF m x) h1 h2 h3 hroot fuel (by omega)
      (acc ++ [(getNode m x).upstreamNodeToRoot])
    simp only [upF] at hrec
    rw [hrec]
    congr 1
    rw [List.append_assoc, List.singleton_append, List.range_succ_eq_map,
      List.map_cons, List.map_map]
    congr 1

theorem find?_of_mem_keys (m : ObjDict) (x : String) (h : x ∈ keysOf m) :
    ∃ p, m.find? (fun p => p.1 = x) = some p := by
  cases hf : m.find? (fun p => p.1 = x) with
  | some p => exact ⟨p, rfl⟩
  | none =>
    obtain ⟨p, hp, hpx⟩ := List.mem_map.mp h
    have := List.find?_eq_none.mp hf p hp
    simp [hpx] at this

/-- C4: after any routing pass that completes without error on a validly
constructed graph with nonnegative edge weights (the specification's stated
precondition), the root's upstream pointer is the self-reference sentinel, and
from every reached node the upstream chain arrives at the root within at most
`|nodes|` steps; consequently the back-trace loop of `getPathAndParamsNode`
terminates for every reached node (queried by its nonempty identifier) and the
reconstructed path's first element is the root's identifier. -/
theorem upstream_chains_terminate
    (spec : GraphSpec) (direct : Bool) (rt : Routing) (n1 n2 : String)
    (g g' : Graph)
    (_hnodup : (specKeys spec).Nodup)
    (hnonneg : ∀ p ∈ spec, ∀ e ∈ p.2, 0 ≤ e.2)
    (hinit : Graph.init spec direct = .ok g)
    (hroute : g.routeFromN1toN2 n1 n2 rt = (none, g'))
    (x : String) (hx : (getNode g'.nodeObjDict x).numHopsFromRoot ≠ -1) :
    upF g'.nodeObjDict n1 = n1 ∧
    (∃ k ≤ (specKeys spec).length, (upF g'.nodeObjDict)^[k] x = n1) ∧
    (x ≠ "" → ∃ path cost bwv hops,
      g'.getPathAndParamsNode x = .ok (some (path, cost, bwv, hops)) ∧
      path.head? = some n1) := by
  obtain ⟨q, inv⟩ := route_final_inv spec direct rt n1 n2 g g' hnonneg hinit hroute
  have hxd : disc g'.nodeObjDict x := hx
  have hrootup : upF g'.nodeObjDict n1 = n1 := by
    rw [upF]
    exact inv.rootState.2.2.2
  obtain ⟨km, hkm, hspec, hnr, hns⟩ :=
    chain_min rt (specKeys spec) n1 _ g'.nodeObjDict q inv x hxd
  refine ⟨hrootup, ⟨km, by omega, hspec⟩, fun hne => ?_⟩
  have hxkey : x ∈ keysOf g'.nodeObjDict := by
    rw [inv.keysEq]
    exact inv.discMem x hxd
  obtain ⟨p, hfind⟩ := find?_of_mem_keys g'.nodeObjDict x hxkey
  have hlen : (specKeys spec).length ≤ g'.nodeObjDict.length := by
    have h1 : (keysOf g'.nodeObjDict).length = g'.nodeObjDict.length :=
      List.length_map _ _
    rw [inv.keysEq] at h1
    omega
  have hrun := pathLoop_run g'.nodeObjDict n1 km x hspec hnr hns hrootup
    g'.nodeObjDict.length (by omega) [x]
  rw [Graph.getPathAndParamsNode]
  simp only [if_neg hne, hfind, hrun]
  refine ⟨_, _, _, _, rfl, ?_⟩
  have hlist : [x] ++ (List.range km).map (fun t => (upF g'.nodeObjDict)^[t + 1] x) =
      (List.range (km + 1)).map (fun t => (upF g'.nodeObjDict)^[t] x) := by
    rw [List.range_succ_eq_map, List.map_cons, List.map_map]
    rfl
  rw [hlist, List.head?_reverse, List.range_succ, List.map_append,
    List.map_singleton, List.getLast?_concat]
  rw [hspec]

theorem upstream_chains_terminate_witness :
    upF demoDirectedBw.2.nodeObjDict "a" = "a" ∧
    (∃ k ≤ (specKeys demoSpec).length, (upF demoDirectedBw.2.nodeObjDict)^[k] "c" = "a") ∧
    ("c" ≠ "" → ∃ path cost bwv hops,
      demoDirectedBw.2.getPathAndParamsNode "c" = .ok (some (path, cost, bwv, hops)) ∧
      path.head? = some "a") :=
  upstream_chains_terminate demoSpec true .bestBandwidth "a" "c"
    (demoGraph true) demoDirectedBw.2
    (by decide) (by decide) rfl rfl "c" (by decide)

theorem pathLoop_self (m : ObjDict) (x : String)
    (h : (getNode m x).upstreamNodeToRoot = x) :
    ∀ fuel acc, pathLoop m fuel x acc = some acc := by
  intro fuel acc
  cases fuel <;> simp [pathLoop, h]

theorem reach_subset (A : String → List (String × Int)) (root : String)
    (S : List String) (hroot : root ∈ S)
    (hclosed : ∀ x ∈ S, ∀ e ∈ A x, e.1 ∈ S) :
    ∀ x, Reach A root x → x ∈ S := by
  intro x h
  induction h with
  | refl => exact hroot
  | step hx he ih => exact hclosed _ ih _ he

/-- C7: after any routing pass that completes without error on a validly
constructed graph with nonnegative edge weights, querying a declared node that
the final adjacency offers no root-to-node path for returns, without raising
any error, exactly the singleton path holding the node itself together with the
sentinel values `-1` (cost), `999` (bandwidth) and `-1` (hop count). -/
theorem unreached_node_sentinel
    (spec : GraphSpec) (direct : Bool) (rt : Routing) (n1 n2 : String)
    (g g' : Graph)
    (hnonneg : ∀ p ∈ spec, ∀ e ∈ p.2, 0 ≤ e.2)
    (hinit : Graph.init spec direct = .ok g)
    (hroute : g.routeFromN1toN2 n1 n2 rt = (none, g'))
    (x : String) (hxk : x ∈ specKeys spec) (hne : x ≠ "")
    (hnr : ¬ Reach (fun y => (getNode g'.nodeObjDict y).adjacencies) n1 x) :
    g'.getPathAndParamsNode x = .ok (some ([x], -1, 999, -1)) := by
  obtain ⟨q, inv⟩ := route_final_inv spec direct rt n1 n2 g g' hnonneg hinit hroute
  have hnd : ¬ disc g'.nodeObjDict x := by
    intro hd
    exact hnr (by simpa [inv.adjEq] using inv.discReach x hd)
  obtain ⟨hup, hval, hbw⟩ := inv.pristine x hnd
  have hhops : (getNode g'.nodeObjDict x).numHopsFromRoot = -1 := by
    by_contra hc
    exact hnd hc
  have hxkey : x ∈ keysOf g'.nodeObjDict := by
    rw [inv.keysEq]
    exact hxk
  obtain ⟨p, hfind⟩ := find?_of_mem_keys g'.nodeObjDict x hxkey
  rw [Graph.getPathAndParamsNode]
  simp only [if_neg hne, hfind, pathLoop_self g'.nodeObjDict x hup]
  rw [hval, hbw, hhops]
  rfl

theorem unreached_node_sentinel_witness :
    demoDirectedBw.2.getPathAndParamsNode "e" = .ok (some (["e"], -1, 999, -1)) :=
  unreached_node_sentinel demoSpec true .bestBandwidth "a" "c"
    (demoGraph true) demoDirectedBw.2
    (by decide) rfl rfl "e" (by decide) (by decide)
    (fun h => by
      have hm := reach_subset _ "a" ["a", "b", "c", "d"] (by decide)
        (by decide) "e" h
      simp at hm)
